import Mathlib

/-!
The cfdp runtime thread pool: `Future` and `ThreadPool::dispatchTask`.

A shallow embedding of `include/runtime/cfdp_runtime/thread_pool.hpp`.

* The shared states created by `std::make_shared<std::promise<T>>()` live in an explicit
  heap (`Heap`), a list indexed by allocation order; a `shared_ptr` to a promise and the
  `std::future` obtained from it are both the index of that shared state.
* A callable `std::function<T(Args...)>` applied to its arguments either returns a `T` or
  throws; it is a function into `Except (exception_ptr E) T`.
* The type-erased closure `wrapper` is the record of its three captures, and `wrapper.call`
  is its body, with the `try`/`catch (...)` written out.
* `std::promise` and `std::future` follow the C++ standard ([futures.promise],
  [futures.unique.future]): a shared state is satisfied at most once, `set_value` and
  `set_exception` on a satisfied state throw `future_error(promise_already_satisfied)`,
  `get` releases the shared state and leaves the future invalid, a promise that is destroyed
  before it was satisfied stores `future_error(broken_promise)`, and `get` on a future without
  a shared state throws `future_error(no_state)`.
-/

namespace cfdp.runtime

namespace atomic

/-- Modelled from the spec: `AtomicQueue` of `atomic_queue.hpp`, which is not part of
`thread_pool.hpp`. Section 3 describes it as an unbounded ordered sequence of thunks, the
head being the oldest element. -/
abbrev AtomicQueue (α : Type) := List α

/-- Modelled from the spec: `AtomicQueue::push` (section 4.1): enqueues a thunk, always
succeeds, has no effect beyond the queue, and keeps the order of pushes. -/
def AtomicQueue.push {α : Type} (queue : AtomicQueue α) (item : α) : AtomicQueue α :=
  queue ++ [item]

/-- Modelled from the spec: `AtomicQueue::pop` (section 4.1): removes and returns the oldest
thunk, or reports the empty signal (`none`) where the real call would wait. -/
def AtomicQueue.pop {α : Type} (queue : AtomicQueue α) : Option α × AtomicQueue α :=
  match queue with
  | [] => (none, [])
  | item :: rest => (some item, rest)

end atomic

namespace thread_pool

open atomic

/-- The error codes of `std::future_errc`. -/
inductive future_errc where
  | broken_promise
  | future_already_retrieved
  | promise_already_satisfied
  | no_state
  deriving DecidableEq, Repr

/-- The three values of `std::future_status`. -/
inductive future_status where
  | ready
  | timeout
  | deferred
  deriving DecidableEq, Repr

/-- What `std::current_exception()` captures: an exception thrown by user code, with payload
of type `E`, or a `std::future_error` with its code. -/
inductive exception_ptr (E : Type) where
  | thrown (e : E)
  | future_error (code : future_errc)
  deriving DecidableEq, Repr

/-- The shared state of a `std::promise<T>` and its `std::future<T>`: not yet satisfied, or
holding a value, or holding an exception. -/
inductive shared_state (T E : Type) where
  | unset
  | value (v : T)
  | exception (e : exception_ptr E)
  deriving DecidableEq, Repr

/-- The shared states allocated so far; the address of a state is its index. -/
abbrev Heap (T E : Type) := List (shared_state T E)

/-- A callable `std::function<T(Args...)>`: applied to its arguments it returns a value or
throws. -/
abbrev function (A T E : Type) := A → Except (exception_ptr E) T

/-- Whether a shared state is ready (holds a value or an exception). -/
def shared_state.is_ready {T E : Type} : shared_state T E → Bool
  | .unset => false
  | .value _ => true
  | .exception _ => true

/-- The shared state in which the outcome of a call is stored: `set_value(result)` for a
normal return, `set_exception(std::current_exception())` for a throw. -/
def shared_state.of_outcome {T E : Type} : Except (exception_ptr E) T → shared_state T E
  | .ok v => .value v
  | .error e => .exception e

/-- `std::promise<T>::set_value` through a pointer to the promise at address `p`: stores the
value when the state is not yet satisfied, throws `promise_already_satisfied` when it is, and
`no_state` when there is no shared state at `p`. -/
def promise_set_value {T E : Type} (heap : Heap T E) (p : Nat) (v : T) :
    Except (exception_ptr E) (Heap T E) :=
  match heap[p]? with
  | some .unset => .ok (heap.set p (.value v))
  | some _ => .error (.future_error .promise_already_satisfied)
  | none => .error (.future_error .no_state)

/-- `std::promise<T>::set_exception`, with the same conditions as `set_value`. -/
def promise_set_exception {T E : Type} (heap : Heap T E) (p : Nat) (e : exception_ptr E) :
    Except (exception_ptr E) (Heap T E) :=
  match heap[p]? with
  | some .unset => .ok (heap.set p (.exception e))
  | some _ => .error (.future_error .promise_already_satisfied)
  | none => .error (.future_error .no_state)

/-- The closure `[promise, func, args...]() mutable { ... }` built by `dispatchTask`
(lines 92-102): its captures. -/
structure wrapper (A T E : Type) where
  promise : Nat
  func : function A T E
  args : A

/-- The body of the `wrapper` closure. The `try` block calls `func(args...)` and then
`promise->set_value(result)`; whatever either of them throws is caught by `catch (...)`,
which calls `promise->set_exception(std::current_exception())`. Returns the heap after the
call and the exception that leaves the closure, if any. -/
def wrapper.call {A T E : Type} (w : wrapper A T E) (heap : Heap T E) :
    Heap T E × Option (exception_ptr E) :=
  let tryBlock : Except (exception_ptr E) (Heap T E) :=
    match w.func w.args with
    | .ok result => promise_set_value heap w.promise result
    | .error e => .error e
  match tryBlock with
  | .ok heap1 => (heap1, none)
  | .error e =>
    match promise_set_exception heap w.promise e with
    | .ok heap1 => (heap1, none)
    | .error e1 => (heap, some e1)

/-- The class `Future<T>` (lines 21-45): its one member `internal`, a `std::future<T>`,
which is the address of its shared state while `valid()` and `none` once released. -/
structure Future where
  internal : Option Nat
  deriving DecidableEq, Repr

/-- What a call of `Future::get` does: it returns a value, or an exception leaves it, or the
state is not ready and the caller waits (`blocked`). -/
inductive get_result (T E : Type) where
  | returned (v : T)
  | raised (e : exception_ptr E)
  | blocked
  deriving DecidableEq, Repr

/-- `T Future::get() { return internal.get(); }` (line 34): `std::future::get` waits until
the state is ready, returns the value or rethrows the exception, and releases the shared
state, so that the future is invalid afterwards; called on a future without a shared state it
throws `future_error(no_state)`. Returns the result and the handle after the call. -/
def Future.get {T E : Type} (self : Future) (heap : Heap T E) : get_result T E × Future :=
  match self.internal with
  | none => (.raised (.future_error .no_state), { internal := none })
  | some p =>
    match heap[p]? with
    | some (.value v) => (.returned v, { internal := none })
    | some (.exception e) => (.raised e, { internal := none })
    | some .unset => (.blocked, self)
    | none => (.raised (.future_error .no_state), { internal := none })

/-- `Future::poll` (lines 36-39): `internal.wait_for(std::chrono::seconds(0))`, which is
`ready` when the state is ready and `timeout` when it is not; `none`: no status is returned,
because `wait_for` on a future without a shared state throws `future_error(no_state)`, which
cannot leave the `noexcept` function. -/
def Future.poll {T E : Type} (self : Future) (heap : Heap T E) : Option future_status :=
  match self.internal with
  | none => none
  | some p =>
    match heap[p]? with
    | some s => if s.is_ready then some .ready else some .timeout
    | none => none

/-- `Future::isReady` (line 41): `poll() == std::future_status::ready`. -/
def Future.isReady {T E : Type} (self : Future) (heap : Heap T E) : Option Bool :=
  (self.poll heap).map (fun status => status == future_status.ready)

/-- A `std::thread` of the `workers` vector, named by an id. -/
structure thread where
  id : Nat
  deriving DecidableEq, Repr

/-- The private state of `ThreadPool` (lines 63-66). -/
structure ThreadPool (A T E : Type) where
  shutdownFlag : Bool
  workers : List thread
  queue : AtomicQueue (wrapper A T E)

/-- `ThreadPool::dispatchTask` (lines 76-107): allocates the promise, takes its future,
builds the `wrapper` closure over the promise, the callable and the arguments, pushes it to
the queue and returns the future wrapped in a `Future`. Returns the pool and the heap after
the call together with the handle. -/
def ThreadPool.dispatchTask {A T E : Type} (self : ThreadPool A T E) (heap : Heap T E)
    (func : function A T E) (args : A) : ThreadPool A T E × Heap T E × Future :=
  let promise := heap.length
  let heap1 := heap ++ [shared_state.unset]
  let future : Option Nat := some promise
  let w : wrapper A T E := { promise := promise, func := func, args := args }
  ({ self with queue := self.queue.push w }, heap1, { internal := future })

/-- What can happen to a pool and its heap between two observations: a further
`dispatchTask` call, or the execution of a `wrapper` closure by whoever holds it. -/
inductive Event (A T E : Type) where
  | dispatch (func : function A T E) (args : A)
  | execute (w : wrapper A T E)

/-- The pool and heap after one event. -/
def Event.apply {A T E : Type} (ev : Event A T E) (state : ThreadPool A T E × Heap T E) :
    ThreadPool A T E × Heap T E :=
  match ev with
  | .dispatch func args =>
    let r := state.1.dispatchTask state.2 func args
    (r.1, r.2.1)
  | .execute w => (state.1, (w.call state.2).1)

/-- The pool and heap after a list of events, oldest first. -/
def run_events {A T E : Type} (evs : List (Event A T E))
    (state : ThreadPool A T E × Heap T E) : ThreadPool A T E × Heap T E :=
  evs.foldl (fun s ev => ev.apply s) state

/-- Whether the event executes a closure holding the promise at address `p`. -/
def Event.executes {A T E : Type} (p : Nat) : Event A T E → Bool
  | .dispatch _ _ => false
  | .execute w => w.promise == p

/-- Executes the closures of `order` one after another, first to last. -/
def call_all {A T E : Type} (order : List (wrapper A T E)) (heap : Heap T E) : Heap T E :=
  order.foldl (fun h w => (w.call h).1) heap

/-- A list of `dispatchTask` calls made one after another; returns the pool, the heap and the
handles, in submission order. -/
def dispatch_all {A T E : Type} :
    List (function A T E × A) → ThreadPool A T E → Heap T E →
      ThreadPool A T E × Heap T E × List Future
  | [], pool, heap => (pool, heap, [])
  | (func, args) :: rest, pool, heap =>
    let r := pool.dispatchTask heap func args
    let rs := dispatch_all rest r.1 r.2.1
    (rs.1, rs.2.1, r.2.2 :: rs.2.2)

/-- The closures that a list of submissions enqueues when the first promise is allocated at
address `base`. -/
def wrappers_from {A T E : Type} : Nat → List (function A T E × A) → List (wrapper A T E)
  | _, [] => []
  | base, (func, args) :: rest =>
    { promise := base, func := func, args := args } :: wrappers_from (base + 1) rest

/-- Modelled from the spec: the worker loop of section 4.4, whose body (the constructor of
`ThreadPool`) is not in `thread_pool.hpp`. While the shutdown flag is not set the worker pops
the oldest thunk and executes it; it leaves the loop when the pop reports the empty signal,
and it is gone when an exception leaves a thunk. Returns the thunks executed, in execution
order, the queue left behind and the heap. -/
def worker_loop {A T E : Type} (shutdownFlag : Bool) :
    AtomicQueue (wrapper A T E) → Heap T E →
      List (wrapper A T E) × AtomicQueue (wrapper A T E) × Heap T E
  | [], heap => ([], [], heap)
  | w :: rest, heap =>
    if shutdownFlag then ([], w :: rest, heap)
    else
      match w.call heap with
      | (heap1, some _) => ([w], rest, heap1)
      | (heap1, none) =>
        let r := worker_loop shutdownFlag rest heap1
        (w :: r.1, r.2.1, r.2.2)

/-- The callable of the scenario of section 8: `i * i`. -/
def square {E : Type} : function Nat Nat E := fun i => .ok (i * i)

/-- The 100 submissions of the scenario of section 8: `square` on `0 .. 99`. -/
def square_tasks {E : Type} : List (function Nat Nat E × Nat) :=
  (List.range 100).map (fun i => (square, i))

/-- What `get` gives on a cell holding the outcome of a call: the value returned, or the
exception raised. -/
def get_result.of_outcome {T E : Type} : Except (exception_ptr E) T → get_result T E
  | .ok v => .returned v
  | .error e => .raised e

/-- The handles returned by `n` submissions made one after another when the first promise is
allocated at address `base`. -/
def futures_from : Nat → Nat → List Future
  | _, 0 => []
  | base, n + 1 => { internal := some base } :: futures_from (base + 1) n

/-- The closure that `dispatchTask` builds when the heap holds `heap.length` shared states:
it captures the promise allocated at address `heap.length`, the callable and the arguments. -/
def dispatched {A T E : Type} (heap : Heap T E) (func : function A T E) (args : A) :
    wrapper A T E :=
  { promise := heap.length, func := func, args := args }

/-- A running pool with two workers and an empty queue. -/
def example_pool : ThreadPool Nat Nat Nat :=
  { shutdownFlag := false, workers := [{ id := 0 }, { id := 1 }], queue := [] }

/-- A callable in the manner of the scenario of section 8: divides 100 by its argument and
throws (payload 1) on zero. -/
def divide : function Nat Nat Nat :=
  fun n => if n = 0 then .error (.thrown 1) else .ok (100 / n)

/-- `std::promise<T>::~promise` for the promise at address `p`, run when the last
`shared_ptr` to it goes: the promise abandons its shared state, which stores
`future_error(broken_promise)` and becomes ready if it was not yet satisfied, and is left as
it is otherwise. -/
def promise_abandon {T E : Type} (heap : Heap T E) (p : Nat) : Heap T E :=
  match heap[p]? with
  | some .unset => heap.set p (.exception (.future_error .broken_promise))
  | _ => heap

/-- The destruction of a `wrapper` closure. After `dispatchTask` has returned, the closure in
the queue holds the only `shared_ptr` to its promise (the local `promise` of line 84 is gone
and `wrapper` was moved into the queue at line 104), so its destruction destroys the
promise. -/
def wrapper.destroy {A T E : Type} (w : wrapper A T E) (heap : Heap T E) : Heap T E :=
  promise_abandon heap w.promise

/-- An `Event`, or the destruction of a closure (after its execution by the worker that
popped it, or unexecuted, when the queue that holds it is torn down). -/
inductive Step (A T E : Type) where
  | event (ev : Event A T E)
  | destroy (w : wrapper A T E)

/-- The pool and heap after one step. -/
def Step.apply {A T E : Type} (st : Step A T E) (state : ThreadPool A T E × Heap T E) :
    ThreadPool A T E × Heap T E :=
  match st with
  | .event ev => ev.apply state
  | .destroy w => (state.1, w.destroy state.2)

/-- The pool and heap after a list of steps, oldest first. -/
def run_steps {A T E : Type} (steps : List (Step A T E))
    (state : ThreadPool A T E × Heap T E) : ThreadPool A T E × Heap T E :=
  steps.foldl (fun s st => st.apply s) state

/-- Whether the step executes a closure holding the promise at address `p`. -/
def Step.executes {A T E : Type} (p : Nat) : Step A T E → Bool
  | .event ev => ev.executes p
  | .destroy _ => false

/-- Whether the step destroys a closure holding the promise at address `p`. -/
def Step.destroys {A T E : Type} (p : Nat) : Step A T E → Bool
  | .event _ => false
  | .destroy w => w.promise == p

/-- Modelled from the spec: what one worker thread of section 4.4, whose loop is in the
absent constructor of `ThreadPool`, is at: about to pop (`idle`), holding a thunk it has
popped and not yet executed, or out of its loop (`gone`). -/
inductive worker_state (A T E : Type) where
  | idle
  | holding (w : wrapper A T E)
  | gone

/-- Modelled from the spec: a pool at work (sections 4.3 and 4.4): the pool and the heap, the
state of each worker thread, in the order of `workers`, and, for the record, the closures
executed so far, in execution order, and the handles returned so far, in submission order. -/
structure Machine (A T E : Type) where
  pool : ThreadPool A T E
  heap : Heap T E
  threads : List (worker_state A T E)
  executed : List (wrapper A T E)
  handles : List Future

/-- Modelled from the spec: the constructor `ThreadPool(numWorkers)` (section 4.3), whose body
is not in `thread_pool.hpp`: a running pool with `numWorkers` worker threads, each at the top
of its loop, and an empty queue. -/
def Machine.start {A T E : Type} (numWorkers : Nat) (heap : Heap T E) : Machine A T E :=
  { pool := { shutdownFlag := false,
              workers := (List.range numWorkers).map (fun i => { id := i }),
              queue := [] },
    heap := heap,
    threads := List.replicate numWorkers worker_state.idle,
    executed := [],
    handles := [] }

/-- A caller submits a task: one call of `dispatchTask`. -/
def Machine.submit {A T E : Type} (m : Machine A T E) (func : function A T E) (args : A) :
    Machine A T E :=
  { m with
    pool := (m.pool.dispatchTask m.heap func args).1,
    heap := (m.pool.dispatchTask m.heap func args).2.1,
    handles := m.handles ++ [(m.pool.dispatchTask m.heap func args).2.2] }

/-- Modelled from the spec: one move of worker `i` in its loop (section 4.4). A worker that
holds a thunk executes it, and is gone if an exception leaves the thunk; a worker at the top
of its loop leaves it when the shutdown flag is set, and pops otherwise: it takes the oldest
thunk, or keeps waiting when the queue is empty. -/
def Machine.turn {A T E : Type} (m : Machine A T E) (i : Nat) : Machine A T E :=
  match m.threads[i]? with
  | some (.holding w) =>
    match w.call m.heap with
    | (heap1, none) =>
      { m with heap := heap1, threads := m.threads.set i .idle, executed := m.executed ++ [w] }
    | (heap1, some _) =>
      { m with heap := heap1, threads := m.threads.set i .gone, executed := m.executed ++ [w] }
  | some .idle =>
    if m.pool.shutdownFlag then { m with threads := m.threads.set i .gone }
    else
      match m.pool.queue.pop with
      | (some w, rest) =>
        { m with pool := { m.pool with queue := rest },
                 threads := m.threads.set i (.holding w) }
      | (none, _) => m
  | _ => m

/-- What happens next in a pool at work: a caller submits a task, or worker `i` makes one
move. -/
inductive Action (A T E : Type) where
  | submit (func : function A T E) (args : A)
  | turn (i : Nat)

/-- The pool at work after one action. -/
def Action.apply {A T E : Type} (a : Action A T E) (m : Machine A T E) : Machine A T E :=
  match a with
  | .submit func args => m.submit func args
  | .turn i => m.turn i

/-- The pool at work after a list of actions, oldest first: one interleaving of the callers
and the workers. -/
def run_actions {A T E : Type} (sched : List (Action A T E)) (m : Machine A T E) :
    Machine A T E :=
  sched.foldl (fun m a => a.apply m) m

/-- The submissions among a list of actions, in order. -/
def submissions {A T E : Type} : List (Action A T E) → List (function A T E × A)
  | [] => []
  | .submit func args :: rest => (func, args) :: submissions rest
  | .turn _ :: rest => submissions rest

/-- The thunks that the workers hold. -/
def held {A T E : Type} : List (worker_state A T E) → List (wrapper A T E)
  | [] => []
  | .holding w :: rest => w :: held rest
  | .idle :: rest => held rest
  | .gone :: rest => held rest

/-- The work left in a pool: two moves for each queued thunk (pop, execute) and one for each
thunk held. -/
def Machine.work_left {A T E : Type} (m : Machine A T E) : Nat :=
  2 * m.pool.queue.length + (held m.threads).length

/-- The invariant of a running pool started on a heap of `base` shared states, after the
submissions `subs`: no worker is gone, every closure submitted is executed, held or queued,
the cells of those held or queued are unset, and the cells of those executed hold their
outcomes. -/
structure Machine.Inv {A T E : Type} (numWorkers base : Nat) (m : Machine A T E)
    (subs : List (function A T E × A)) : Prop where
  flag : m.pool.shutdownFlag = false
  threads : m.threads.length = numWorkers
  alive : ∀ t ∈ m.threads, t ≠ worker_state.gone
  heap_length : m.heap.length = base + subs.length
  perm : (m.executed ++ (held m.threads ++ m.pool.queue)).Perm (wrappers_from base subs)
  pending : ∀ w ∈ held m.threads ++ m.pool.queue, m.heap[w.promise]? = some shared_state.unset
  done : ∀ w ∈ m.executed,
    m.heap[w.promise]? = some (shared_state.of_outcome (w.func w.args))
  handles : m.handles = futures_from base subs.length

/-! ## One execution of a closure -/

theorem call_unset {A T E : Type} (w : wrapper A T E) (heap : Heap T E)
    (h : heap[w.promise]? = some .unset) :
    w.call heap = (heap.set w.promise (shared_state.of_outcome (w.func w.args)), none) := by
  unfold wrapper.call promise_set_value promise_set_exception
  cases hf : w.func w.args <;> simp [h, shared_state.of_outcome]

theorem call_satisfied {A T E : Type} (w : wrapper A T E) (heap : Heap T E)
    (s : shared_state T E) (h : heap[w.promise]? = some s) (hs : s.is_ready = true) :
    w.call heap = (heap, some (.future_error .promise_already_satisfied)) := by
  unfold wrapper.call promise_set_value promise_set_exception
  cases s with
  | unset => simp [shared_state.is_ready] at hs
  | value v => cases hf : w.func w.args <;> simp [h]
  | exception e => cases hf : w.func w.args <;> simp [h]

theorem call_no_state {A T E : Type} (w : wrapper A T E) (heap : Heap T E)
    (h : heap[w.promise]? = none) :
    w.call heap = (heap, some (.future_error .no_state)) := by
  unfold wrapper.call promise_set_value promise_set_exception
  cases hf : w.func w.args <;> simp [h]

theorem call_length {A T E : Type} (w : wrapper A T E) (heap : Heap T E) :
    (w.call heap).1.length = heap.length := by
  cases h : heap[w.promise]? with
  | none => rw [call_no_state w heap h]
  | some s =>
    cases s with
    | unset => rw [call_unset w heap h]; simp
    | value v => rw [call_satisfied w heap _ h rfl]
    | exception e => rw [call_satisfied w heap _ h rfl]

theorem call_other {A T E : Type} (w : wrapper A T E) (heap : Heap T E) (p : Nat)
    (hp : w.promise ≠ p) : (w.call heap).1[p]? = heap[p]? := by
  cases h : heap[w.promise]? with
  | none => rw [call_no_state w heap h]
  | some s =>
    cases s with
    | unset => rw [call_unset w heap h]; simp [List.getElem?_set_ne hp]
    | value v => rw [call_satisfied w heap _ h rfl]
    | exception e => rw [call_satisfied w heap _ h rfl]

theorem call_ready_stable {A T E : Type} (w : wrapper A T E) (heap : Heap T E) (p : Nat)
    (s : shared_state T E) (h : heap[p]? = some s) (hs : s.is_ready = true) :
    (w.call heap).1[p]? = some s := by
  by_cases hp : w.promise = p
  · subst hp
    rw [call_satisfied w heap s h hs]
    exact h
  · rw [call_other w heap p hp]
    exact h

theorem call_own {A T E : Type} (w : wrapper A T E) (heap : Heap T E)
    (h : heap[w.promise]? = some .unset) :
    (w.call heap).1[w.promise]? = some (shared_state.of_outcome (w.func w.args)) := by
  rw [call_unset w heap h]
  have hlt : w.promise < heap.length := by
    rcases List.getElem?_eq_some.mp h with ⟨hlt, _⟩
    exact hlt
  simp [List.getElem?_set_self, hlt]

theorem of_outcome_ready {T E : Type} (r : Except (exception_ptr E) T) :
    (shared_state.of_outcome r).is_ready = true := by
  cases r <;> rfl

/-! ## `dispatchTask` -/

theorem dispatchTask_heap {A T E : Type} (pool : ThreadPool A T E) (heap : Heap T E)
    (func : function A T E) (args : A) :
    (pool.dispatchTask heap func args).2.1 = heap ++ [shared_state.unset] := rfl

theorem dispatchTask_cell {A T E : Type} (pool : ThreadPool A T E) (heap : Heap T E)
    (func : function A T E) (args : A) :
    (pool.dispatchTask heap func args).2.1[heap.length]? = some shared_state.unset := by
  simp [dispatchTask_heap]

theorem dispatchTask_old {A T E : Type} (pool : ThreadPool A T E) (heap : Heap T E)
    (func : function A T E) (args : A) (p : Nat) (s : shared_state T E)
    (h : heap[p]? = some s) :
    (pool.dispatchTask heap func args).2.1[p]? = some s := by
  have hlt : p < heap.length := by
    rcases List.getElem?_eq_some.mp h with ⟨hlt, _⟩
    exact hlt
  rw [dispatchTask_heap, List.getElem?_append_left hlt]
  exact h

/-! ## Events -/

theorem apply_ready_stable {A T E : Type} (ev : Event A T E)
    (state : ThreadPool A T E × Heap T E) (p : Nat) (s : shared_state T E)
    (h : state.2[p]? = some s) (hs : s.is_ready = true) :
    (ev.apply state).2[p]? = some s := by
  cases ev with
  | dispatch func args => exact dispatchTask_old state.1 state.2 func args p s h
  | execute w => exact call_ready_stable w state.2 p s h hs

theorem apply_unset_stable {A T E : Type} (ev : Event A T E)
    (state : ThreadPool A T E × Heap T E) (p : Nat)
    (h : state.2[p]? = some .unset) (hev : ev.executes p = false) :
    (ev.apply state).2[p]? = some .unset := by
  cases ev with
  | dispatch func args => exact dispatchTask_old state.1 state.2 func args p _ h
  | execute w =>
    have hp : w.promise ≠ p := by simpa [Event.executes] using hev
    show (w.call state.2).1[p]? = some .unset
    rw [call_other w state.2 p hp]
    exact h

theorem apply_executes {A T E : Type} (ev : Event A T E)
    (state : ThreadPool A T E × Heap T E) (p : Nat)
    (h : state.2[p]? = some .unset) (hev : ev.executes p = true) :
    ∃ s, (ev.apply state).2[p]? = some s ∧ s.is_ready = true := by
  cases ev with
  | dispatch func args => simp [Event.executes] at hev
  | execute w =>
    have hp : w.promise = p := by simpa [Event.executes] using hev
    subst hp
    exact ⟨_, call_own w state.2 h, of_outcome_ready _⟩

theorem run_events_cons {A T E : Type} (ev : Event A T E) (evs : List (Event A T E))
    (state : ThreadPool A T E × Heap T E) :
    run_events (ev :: evs) state = run_events evs (ev.apply state) := rfl

theorem run_events_append {A T E : Type} (evs1 evs2 : List (Event A T E))
    (state : ThreadPool A T E × Heap T E) :
    run_events (evs1 ++ evs2) state = run_events evs2 (run_events evs1 state) := by
  simp [run_events, List.foldl_append]

theorem events_ready_stable {A T E : Type} (evs : List (Event A T E)) :
    ∀ (state : ThreadPool A T E × Heap T E) (p : Nat) (s : shared_state T E),
      state.2[p]? = some s → s.is_ready = true → (run_events evs state).2[p]? = some s := by
  induction evs with
  | nil => intro state p s h _; exact h
  | cons ev evs ih =>
    intro state p s h hs
    rw [run_events_cons]
    exact ih _ p s (apply_ready_stable ev state p s h hs) hs

theorem events_unset_stable {A T E : Type} (evs : List (Event A T E)) :
    ∀ (state : ThreadPool A T E × Heap T E) (p : Nat),
      state.2[p]? = some .unset → evs.any (Event.executes p) = false →
        (run_events evs state).2[p]? = some .unset := by
  induction evs with
  | nil => intro state p h _; exact h
  | cons ev evs ih =>
    intro state p h hev
    rw [List.any_cons, Bool.or_eq_false_iff] at hev
    rw [run_events_cons]
    exact ih _ p (apply_unset_stable ev state p h hev.1) hev.2

theorem events_executed_ready {A T E : Type} (evs : List (Event A T E)) :
    ∀ (state : ThreadPool A T E × Heap T E) (p : Nat),
      state.2[p]? = some .unset → evs.any (Event.executes p) = true →
        ∃ s, (run_events evs state).2[p]? = some s ∧ s.is_ready = true := by
  induction evs with
  | nil => intro state p _ hev; simp at hev
  | cons ev evs ih =>
    intro state p h hev
    rw [run_events_cons]
    cases hx : ev.executes p with
    | true =>
      obtain ⟨s, hs, hr⟩ := apply_executes ev state p h hx
      exact ⟨s, events_ready_stable evs _ p s hs hr, hr⟩
    | false =>
      rw [List.any_cons, hx, Bool.false_or] at hev
      exact ih _ p (apply_unset_stable ev state p h hx) hev

/-! ## Observations through the handle -/

theorem poll_of_cell {T E : Type} (heap : Heap T E) (p : Nat) (s : shared_state T E)
    (h : heap[p]? = some s) :
    Future.poll { internal := some p } heap
      = some (if s.is_ready then future_status.ready else future_status.timeout) := by
  unfold Future.poll
  simp only [h]
  split <;> simp_all

theorem isReady_of_cell {T E : Type} (heap : Heap T E) (p : Nat) (s : shared_state T E)
    (h : heap[p]? = some s) :
    Future.isReady { internal := some p } heap = some s.is_ready := by
  unfold Future.isReady
  rw [poll_of_cell heap p s h]
  cases s.is_ready <;> simp

theorem get_of_value {T E : Type} (heap : Heap T E) (p : Nat) (v : T)
    (h : heap[p]? = some (.value v)) :
    Future.get { internal := some p } heap = (.returned v, { internal := none }) := by
  unfold Future.get
  simp [h]

theorem get_of_exception {T E : Type} (heap : Heap T E) (p : Nat) (e : exception_ptr E)
    (h : heap[p]? = some (.exception e)) :
    Future.get { internal := some p } heap = (.raised e, { internal := none }) := by
  unfold Future.get
  simp [h]

/-! ## The handle and the closure of one submission -/

theorem dispatchTask_queue {A T E : Type} (pool : ThreadPool A T E) (heap : Heap T E)
    (func : function A T E) (args : A) :
    (pool.dispatchTask heap func args).1.queue
      = pool.queue ++ [{ promise := heap.length, func := func, args := args }] := rfl

theorem dispatchTask_future {A T E : Type} (pool : ThreadPool A T E) (heap : Heap T E)
    (func : function A T E) (args : A) :
    (pool.dispatchTask heap func args).2.2 = { internal := some heap.length } := rfl

/-- After a submission, events that execute no closure on its promise, then the execution of
its closure, then any further events: the cell of the submission holds the outcome of the
call. -/
theorem cell_after_execution {A T E : Type} (pool : ThreadPool A T E) (heap : Heap T E)
    (func : function A T E) (args : A) (before after : List (Event A T E))
    (hfirst : before.any (Event.executes heap.length) = false) :
    (run_events
        (before ++ Event.execute { promise := heap.length, func := func, args := args } :: after)
        ((pool.dispatchTask heap func args).1, (pool.dispatchTask heap func args).2.1)).2[heap.length]?
      = some (shared_state.of_outcome (func args)) := by
  rw [run_events_append, run_events_cons]
  have h1 := events_unset_stable before
    ((pool.dispatchTask heap func args).1, (pool.dispatchTask heap func args).2.1) heap.length
    (dispatchTask_cell pool heap func args) hfirst
  have h2 := call_own { promise := heap.length, func := func, args := args } _ h1
  exact events_ready_stable after _ heap.length _ h2 (of_outcome_ready _)

/-! ## Several submissions -/

theorem dispatch_all_cons {A T E : Type} (func : function A T E) (args : A)
    (rest : List (function A T E × A)) (pool : ThreadPool A T E) (heap : Heap T E) :
    dispatch_all ((func, args) :: rest) pool heap
      = ((dispatch_all rest (pool.dispatchTask heap func args).1
            (pool.dispatchTask heap func args).2.1).1,
         (dispatch_all rest (pool.dispatchTask heap func args).1
            (pool.dispatchTask heap func args).2.1).2.1,
         (pool.dispatchTask heap func args).2.2 ::
           (dispatch_all rest (pool.dispatchTask heap func args).1
            (pool.dispatchTask heap func args).2.1).2.2) := rfl

theorem dispatch_all_queue {A T E : Type} (subs : List (function A T E × A)) :
    ∀ (pool : ThreadPool A T E) (heap : Heap T E),
      (dispatch_all subs pool heap).1.queue = pool.queue ++ wrappers_from heap.length subs := by
  induction subs with
  | nil => intro pool heap; simp [dispatch_all, wrappers_from]
  | cons sub rest ih =>
    intro pool heap
    obtain ⟨func, args⟩ := sub
    rw [dispatch_all_cons]
    simp only [ih, dispatchTask_queue, dispatchTask_heap, wrappers_from, List.length_append,
      List.length_singleton, List.append_assoc, List.singleton_append]

theorem dispatch_all_flag {A T E : Type} (subs : List (function A T E × A)) :
    ∀ (pool : ThreadPool A T E) (heap : Heap T E),
      (dispatch_all subs pool heap).1.shutdownFlag = pool.shutdownFlag
        ∧ (dispatch_all subs pool heap).1.workers = pool.workers := by
  induction subs with
  | nil => intro pool heap; exact ⟨rfl, rfl⟩
  | cons sub rest ih =>
    intro pool heap
    obtain ⟨func, args⟩ := sub
    rw [dispatch_all_cons]
    exact ih _ _

theorem dispatch_all_heap {A T E : Type} (subs : List (function A T E × A)) :
    ∀ (pool : ThreadPool A T E) (heap : Heap T E),
      (dispatch_all subs pool heap).2.1 = heap ++ List.replicate subs.length shared_state.unset := by
  induction subs with
  | nil => intro pool heap; simp [dispatch_all]
  | cons sub rest ih =>
    intro pool heap
    obtain ⟨func, args⟩ := sub
    rw [dispatch_all_cons]
    simp only [ih, dispatchTask_heap, List.length_cons, List.replicate_succ, List.append_assoc,
      List.singleton_append]

theorem dispatch_all_futures {A T E : Type} (subs : List (function A T E × A)) :
    ∀ (pool : ThreadPool A T E) (heap : Heap T E),
      (dispatch_all subs pool heap).2.2 = futures_from heap.length subs.length := by
  induction subs with
  | nil => intro pool heap; simp [dispatch_all, futures_from]
  | cons sub rest ih =>
    intro pool heap
    obtain ⟨func, args⟩ := sub
    rw [dispatch_all_cons]
    simp only [ih, dispatchTask_future, dispatchTask_heap, futures_from, List.length_cons,
      List.length_append, List.length_singleton, List.length_nil, Nat.zero_add]

theorem wrappers_from_promise {A T E : Type} (subs : List (function A T E × A)) :
    ∀ base : Nat,
      (wrappers_from base subs).map (fun w => w.promise) = List.range' base subs.length := by
  induction subs with
  | nil => intro base; simp [wrappers_from]
  | cons sub rest ih =>
    intro base
    obtain ⟨func, args⟩ := sub
    simp [wrappers_from, ih, List.range'_succ]

theorem wrappers_from_length {A T E : Type} (subs : List (function A T E × A)) (base : Nat) :
    (wrappers_from base subs).length = subs.length := by
  have h := congrArg List.length (wrappers_from_promise subs base)
  simpa using h

theorem wrappers_from_range {A T E : Type} (subs : List (function A T E × A)) (base : Nat)
    (w : wrapper A T E) (hw : w ∈ wrappers_from base subs) :
    base ≤ w.promise ∧ w.promise < base + subs.length := by
  have h : w.promise ∈ (wrappers_from base subs).map (fun w => w.promise) :=
    List.mem_map_of_mem _ hw
  rw [wrappers_from_promise] at h
  simpa [List.mem_range'_1] using h

theorem wrappers_from_unset {A T E : Type} (subs : List (function A T E × A))
    (heap : Heap T E) (w : wrapper A T E) (hw : w ∈ wrappers_from heap.length subs) :
    (heap ++ List.replicate subs.length shared_state.unset)[w.promise]?
      = some shared_state.unset := by
  obtain ⟨hlo, hhi⟩ := wrappers_from_range subs heap.length w hw
  rw [List.getElem?_append_right hlo]
  rw [List.getElem?_replicate]
  have : w.promise - heap.length < subs.length := by omega
  simp [this]

/-! ## Executions in an arbitrary order -/

theorem call_all_cons {A T E : Type} (w : wrapper A T E) (order : List (wrapper A T E))
    (heap : Heap T E) : call_all (w :: order) heap = call_all order (w.call heap).1 := rfl

theorem call_all_ready_stable {A T E : Type} (order : List (wrapper A T E)) :
    ∀ (heap : Heap T E) (p : Nat) (s : shared_state T E),
      heap[p]? = some s → s.is_ready = true → (call_all order heap)[p]? = some s := by
  induction order with
  | nil => intro heap p s h _; exact h
  | cons w order ih =>
    intro heap p s h hs
    rw [call_all_cons]
    exact ih _ p s (call_ready_stable w heap p s h hs) hs

theorem call_all_outcomes {A T E : Type} (order : List (wrapper A T E)) :
    ∀ heap : Heap T E,
      (order.map (fun w => w.promise)).Nodup →
      (∀ w ∈ order, heap[w.promise]? = some shared_state.unset) →
      ∀ w ∈ order,
        (call_all order heap)[w.promise]? = some (shared_state.of_outcome (w.func w.args)) := by
  induction order with
  | nil => intro heap _ _ w hw; simp at hw
  | cons w0 order ih =>
    intro heap hnd hunset w hw
    rw [call_all_cons]
    rw [List.map_cons, List.nodup_cons] at hnd
    have hrest : ∀ w1 ∈ order, (w0.call heap).1[w1.promise]? = some shared_state.unset := by
      intro w1 hw1
      have hne : w0.promise ≠ w1.promise := by
        intro heq
        apply hnd.1
        rw [heq]
        exact List.mem_map_of_mem (fun w => w.promise) hw1
      rw [call_other w0 heap w1.promise hne]
      exact hunset w1 (List.mem_cons_of_mem _ hw1)
    by_cases hmem : w ∈ order
    · exact ih _ hnd.2 hrest w hmem
    · have hw0 : w = w0 := by
        rcases List.mem_cons.mp hw with h | h
        · exact h
        · exact absurd h hmem
      subst hw0
      have hown := call_own w heap (hunset w (List.mem_cons_self _ _))
      exact call_all_ready_stable order _ w.promise _ hown (of_outcome_ready _)

theorem futures_from_get {A T E : Type} (subs : List (function A T E × A)) :
    ∀ (base : Nat) (final : Heap T E),
      (∀ w ∈ wrappers_from base subs,
        final[w.promise]? = some (shared_state.of_outcome (w.func w.args))) →
      (futures_from base subs.length).map (fun fut => (fut.get final).1)
        = subs.map (fun sub => get_result.of_outcome (sub.1 sub.2)) := by
  induction subs with
  | nil => intro base final _; simp [futures_from]
  | cons sub rest ih =>
    intro base final h
    obtain ⟨func, args⟩ := sub
    have hhead := h { promise := base, func := func, args := args }
      (by simp [wrappers_from])
    have htail := ih (base + 1) final (fun w hw => h w (by simp [wrappers_from, hw]))
    simp only [List.length_cons, futures_from, List.map_cons, htail]
    congr 1
    simp only at hhead
    unfold Future.get
    simp only [hhead]
    cases hf : func args <;> simp [shared_state.of_outcome, get_result.of_outcome]

theorem worker_loop_cons {A T E : Type} (w : wrapper A T E) (rest : List (wrapper A T E))
    (heap : Heap T E) (h : heap[w.promise]? = some shared_state.unset) :
    worker_loop false (w :: rest) heap
      = (w :: (worker_loop false rest (w.call heap).1).1,
         (worker_loop false rest (w.call heap).1).2.1,
         (worker_loop false rest (w.call heap).1).2.2) := by
  have hc := call_unset w heap h
  simp [worker_loop, hc]

theorem worker_loop_fresh {A T E : Type} (order : List (wrapper A T E)) :
    ∀ heap : Heap T E,
      (order.map (fun w => w.promise)).Nodup →
      (∀ w ∈ order, heap[w.promise]? = some shared_state.unset) →
      worker_loop false order heap = (order, [], call_all order heap) := by
  induction order with
  | nil => intro heap _ _; rfl
  | cons w0 order ih =>
    intro heap hnd hunset
    rw [List.map_cons, List.nodup_cons] at hnd
    have hrest : ∀ w1 ∈ order, (w0.call heap).1[w1.promise]? = some shared_state.unset := by
      intro w1 hw1
      have hne : w0.promise ≠ w1.promise := by
        intro heq
        apply hnd.1
        rw [heq]
        exact List.mem_map_of_mem (fun w => w.promise) hw1
      rw [call_other w0 heap w1.promise hne]
      exact hunset w1 (List.mem_cons_of_mem _ hw1)
    rw [worker_loop_cons w0 order heap (hunset w0 (List.mem_cons_self _ _)),
      ih _ hnd.2 hrest, call_all_cons]

theorem wrappers_from_nodup {A T E : Type} (subs : List (function A T E × A)) (base : Nat) :
    ((wrappers_from base subs).map (fun w => w.promise)).Nodup := by
  rw [wrappers_from_promise]
  exact List.nodup_range' base subs.length

/-! ## The scenario of the squares -/

theorem square_values {E : Type} :
    (square_tasks.map (fun sub => get_result.of_outcome (sub.1 sub.2)) : List (get_result Nat E))
      = (List.range 100).map (fun i => get_result.returned (i * i)) := by
  simp [square_tasks, square, get_result.of_outcome, List.map_map, Function.comp_def]

theorem square_values_nodup {E : Type} :
    ((List.range 100).map (fun i => (get_result.returned (i * i) : get_result Nat E))).Nodup := by
  refine List.Nodup.map ?_ (List.nodup_range 100)
  intro i j hij
  have h : i * i = j * j := by
    injection hij
  exact Nat.mul_self_inj.mp h

/-- The handles of a list of submissions, read after the closures have been executed in the
order `order`, each once. -/
theorem results_of_order {A T E : Type} (pool : ThreadPool A T E) (heap : Heap T E)
    (subs : List (function A T E × A)) (order : List (wrapper A T E))
    (hperm : order.Perm (wrappers_from heap.length subs)) :
    (dispatch_all subs pool heap).2.2.map
        (fun fut => (fut.get (call_all order (dispatch_all subs pool heap).2.1)).1)
      = subs.map (fun sub => get_result.of_outcome (sub.1 sub.2)) := by
  rw [dispatch_all_futures, dispatch_all_heap]
  apply futures_from_get
  intro w hw
  have hnd : (order.map (fun w => w.promise)).Nodup :=
    (List.Perm.nodup_iff (List.Perm.map _ hperm)).mpr (wrappers_from_nodup subs heap.length)
  have hunset : ∀ w1 ∈ order,
      (heap ++ List.replicate subs.length shared_state.unset)[w1.promise]?
        = some shared_state.unset := fun w1 hw1 =>
    wrappers_from_unset subs heap w1 ((List.Perm.mem_iff hperm).mp hw1)
  exact call_all_outcomes order _ hnd hunset w ((List.Perm.mem_iff hperm).mpr hw)

theorem call_all_old {A T E : Type} (order : List (wrapper A T E)) :
    ∀ (heap : Heap T E) (p : Nat),
      (∀ w ∈ order, w.promise ≠ p) → (call_all order heap)[p]? = heap[p]? := by
  induction order with
  | nil => intro heap p _; rfl
  | cons w order ih =>
    intro heap p h
    rw [call_all_cons, ih _ p (fun w1 hw1 => h w1 (List.mem_cons_of_mem _ hw1)),
      call_other w heap p (h w (List.mem_cons_self _ _))]

/-- One iteration of the worker loop on a running pool is a `pop` followed by the execution
of the closure popped. -/
theorem worker_loop_pop {A T E : Type} (queue : AtomicQueue (wrapper A T E)) (heap : Heap T E) :
    worker_loop false queue heap
      = match queue.pop with
        | (none, _) => ([], [], heap)
        | (some w, rest) =>
          match w.call heap with
          | (heap1, some _) => ([w], rest, heap1)
          | (heap1, none) =>
            (w :: (worker_loop false rest heap1).1, (worker_loop false rest heap1).2.1,
              (worker_loop false rest heap1).2.2) := by
  cases queue with
  | nil => rfl
  | cons w rest => simp [worker_loop, AtomicQueue.pop]

/-- A second execution of the closure of a submission leaves the heap as it was, and
`future_error(promise_already_satisfied)`, thrown by `set_exception` inside the `catch`
block, leaves the closure. -/
theorem second_execution_throws {A T E : Type} (pool : ThreadPool A T E) (heap : Heap T E)
    (func : function A T E) (args : A) :
    (dispatched heap func args).call
        ((dispatched heap func args).call (pool.dispatchTask heap func args).2.1).1
      = (((dispatched heap func args).call (pool.dispatchTask heap func args).2.1).1,
          some (exception_ptr.future_error future_errc.promise_already_satisfied)) :=
  call_satisfied (dispatched heap func args) _ _
    (call_own (dispatched heap func args) _ (dispatchTask_cell pool heap func args))
    (of_outcome_ready _)

/-! ## Destruction of a closure -/

theorem destroy_unset {A T E : Type} (w : wrapper A T E) (heap : Heap T E)
    (h : heap[w.promise]? = some .unset) :
    w.destroy heap
      = heap.set w.promise (.exception (.future_error .broken_promise)) := by
  simp [wrapper.destroy, promise_abandon, h]

theorem destroy_satisfied {A T E : Type} (w : wrapper A T E) (heap : Heap T E)
    (s : shared_state T E) (h : heap[w.promise]? = some s) (hs : s.is_ready = true) :
    w.destroy heap = heap := by
  cases s with
  | unset => simp [shared_state.is_ready] at hs
  | value v => simp [wrapper.destroy, promise_abandon, h]
  | exception e => simp [wrapper.destroy, promise_abandon, h]

theorem destroy_other {A T E : Type} (w : wrapper A T E) (heap : Heap T E) (p : Nat)
    (hp : w.promise ≠ p) : (w.destroy heap)[p]? = heap[p]? := by
  unfold wrapper.destroy promise_abandon
  split
  · simp [List.getElem?_set_ne hp]
  · rfl

theorem destroy_ready_stable {A T E : Type} (w : wrapper A T E) (heap : Heap T E) (p : Nat)
    (s : shared_state T E) (h : heap[p]? = some s) (hs : s.is_ready = true) :
    (w.destroy heap)[p]? = some s := by
  by_cases hp : w.promise = p
  · subst hp
    rw [destroy_satisfied w heap s h hs]
    exact h
  · rw [destroy_other w heap p hp]
    exact h

theorem destroy_own {A T E : Type} (w : wrapper A T E) (heap : Heap T E)
    (h : heap[w.promise]? = some .unset) :
    (w.destroy heap)[w.promise]?
      = some (.exception (.future_error .broken_promise)) := by
  rw [destroy_unset w heap h]
  have hlt : w.promise < heap.length := by
    rcases List.getElem?_eq_some.mp h with ⟨hlt, _⟩
    exact hlt
  simp [List.getElem?_set_self, hlt]

theorem step_ready_stable {A T E : Type} (st : Step A T E)
    (state : ThreadPool A T E × Heap T E) (p : Nat) (s : shared_state T E)
    (h : state.2[p]? = some s) (hs : s.is_ready = true) :
    (st.apply state).2[p]? = some s := by
  cases st with
  | event ev => exact apply_ready_stable ev state p s h hs
  | destroy w => exact destroy_ready_stable w state.2 p s h hs

theorem step_unset_stable {A T E : Type} (st : Step A T E)
    (state : ThreadPool A T E × Heap T E) (p : Nat)
    (h : state.2[p]? = some .unset)
    (hst : (st.executes p || st.destroys p) = false) :
    (st.apply state).2[p]? = some .unset := by
  cases st with
  | event ev =>
    have hev : ev.executes p = false := by simpa [Step.executes, Step.destroys] using hst
    exact apply_unset_stable ev state p h hev
  | destroy w =>
    have hp : w.promise ≠ p := by simpa [Step.executes, Step.destroys] using hst
    show (w.destroy state.2)[p]? = some .unset
    rw [destroy_other w state.2 p hp]
    exact h

theorem step_settles {A T E : Type} (st : Step A T E)
    (state : ThreadPool A T E × Heap T E) (p : Nat)
    (h : state.2[p]? = some .unset)
    (hst : (st.executes p || st.destroys p) = true) :
    ∃ s, (st.apply state).2[p]? = some s ∧ s.is_ready = true := by
  cases st with
  | event ev =>
    have hev : ev.executes p = true := by simpa [Step.executes, Step.destroys] using hst
    exact apply_executes ev state p h hev
  | destroy w =>
    have hp : w.promise = p := by simpa [Step.executes, Step.destroys] using hst
    subst hp
    exact ⟨_, destroy_own w state.2 h, rfl⟩

theorem run_steps_cons {A T E : Type} (st : Step A T E) (steps : List (Step A T E))
    (state : ThreadPool A T E × Heap T E) :
    run_steps (st :: steps) state = run_steps steps (st.apply state) := rfl

theorem steps_ready_stable {A T E : Type} (steps : List (Step A T E)) :
    ∀ (state : ThreadPool A T E × Heap T E) (p : Nat) (s : shared_state T E),
      state.2[p]? = some s → s.is_ready = true → (run_steps steps state).2[p]? = some s := by
  induction steps with
  | nil => intro state p s h _; exact h
  | cons st steps ih =>
    intro state p s h hs
    rw [run_steps_cons]
    exact ih _ p s (step_ready_stable st state p s h hs) hs

theorem steps_cell {A T E : Type} (steps : List (Step A T E)) :
    ∀ (state : ThreadPool A T E × Heap T E) (p : Nat),
      state.2[p]? = some .unset →
        ∃ s, (run_steps steps state).2[p]? = some s
          ∧ s.is_ready = steps.any (fun st => st.executes p || st.destroys p) := by
  induction steps with
  | nil => intro state p h; exact ⟨_, h, rfl⟩
  | cons st steps ih =>
    intro state p h
    rw [run_steps_cons, List.any_cons]
    cases hst : (st.executes p || st.destroys p) with
    | true =>
      obtain ⟨s, hs, hr⟩ := step_settles st state p h hst
      exact ⟨s, steps_ready_stable steps _ p s hs hr, by simp [hr]⟩
    | false =>
      obtain ⟨s, hs, hr⟩ := ih _ p (step_unset_stable st state p h hst)
      exact ⟨s, hs, by simp [hr]⟩

theorem poll_steps {A T E : Type} (pool : ThreadPool A T E) (heap : Heap T E)
    (func : function A T E) (args : A) (steps : List (Step A T E)) :
    (pool.dispatchTask heap func args).2.2.poll
        (run_steps steps
          ((pool.dispatchTask heap func args).1, (pool.dispatchTask heap func args).2.1)).2
      = some (if steps.any (fun st => st.executes heap.length || st.destroys heap.length)
              then future_status.ready else future_status.timeout) := by
  obtain ⟨s, hs, hr⟩ := steps_cell steps
    ((pool.dispatchTask heap func args).1, (pool.dispatchTask heap func args).2.1) heap.length
    (dispatchTask_cell pool heap func args)
  rw [dispatchTask_future, poll_of_cell _ _ _ hs, hr]

theorem isReady_steps {A T E : Type} (pool : ThreadPool A T E) (heap : Heap T E)
    (func : function A T E) (args : A) (steps : List (Step A T E)) :
    (pool.dispatchTask heap func args).2.2.isReady
        (run_steps steps
          ((pool.dispatchTask heap func args).1, (pool.dispatchTask heap func args).2.1)).2
      = some (steps.any (fun st => st.executes heap.length || st.destroys heap.length)) := by
  unfold Future.isReady
  rw [poll_steps]
  cases steps.any (fun st => st.executes heap.length || st.destroys heap.length) <;> simp

/-! ## A pool at work -/

theorem held_set_holding {A T E : Type} (w : wrapper A T E)
    (threads : List (worker_state A T E)) :
    ∀ i : Nat, threads[i]? = some worker_state.idle →
      (held (threads.set i (worker_state.holding w))).Perm (w :: held threads) := by
  induction threads with
  | nil => intro i h; simp at h
  | cons t rest ih =>
    intro i h
    cases i with
    | zero =>
      simp only [List.getElem?_cons_zero, Option.some.injEq] at h
      subst h
      simp [held]
    | succ k =>
      simp only [List.getElem?_cons_succ] at h
      have hk := ih k h
      cases t with
      | idle => simpa [held] using hk
      | gone => simpa [held] using hk
      | holding w1 =>
        simp only [List.set_cons_succ, held]
        exact (List.Perm.cons w1 hk).trans (List.Perm.swap w w1 _)

theorem held_set_idle {A T E : Type} (w : wrapper A T E)
    (threads : List (worker_state A T E)) :
    ∀ i : Nat, threads[i]? = some (worker_state.holding w) →
      (held threads).Perm (w :: held (threads.set i worker_state.idle)) := by
  induction threads with
  | nil => intro i h; simp at h
  | cons t rest ih =>
    intro i h
    cases i with
    | zero =>
      simp only [List.getElem?_cons_zero, Option.some.injEq] at h
      subst h
      simp [held]
    | succ k =>
      simp only [List.getElem?_cons_succ] at h
      have hk := ih k h
      cases t with
      | idle => simpa [held] using hk
      | gone => simpa [held] using hk
      | holding w1 =>
        simp only [List.set_cons_succ, held]
        exact (List.Perm.cons w1 hk).trans (List.Perm.swap w w1 _)

theorem held_all_idle {A T E : Type} (threads : List (worker_state A T E)) :
    (∀ i : Nat, i < threads.length → threads[i]? = some worker_state.idle) →
      held threads = [] := by
  induction threads with
  | nil => intro _; rfl
  | cons t rest ih =>
    intro h
    have h0 := h 0 (by simp)
    simp only [List.getElem?_cons_zero, Option.some.injEq] at h0
    subst h0
    have hrest : ∀ i : Nat, i < rest.length → rest[i]? = some worker_state.idle := by
      intro i hi
      have := h (i + 1) (by simpa using hi)
      simpa using this
    simpa [held] using ih hrest

theorem wrappers_from_append {A T E : Type} (subs : List (function A T E × A))
    (func : function A T E) (args : A) :
    ∀ base : Nat,
      wrappers_from base (subs ++ [(func, args)])
        = wrappers_from base subs
            ++ [{ promise := base + subs.length, func := func, args := args }] := by
  induction subs with
  | nil => intro base; simp [wrappers_from]
  | cons sub rest ih =>
    intro base
    obtain ⟨f, a⟩ := sub
    have e : base + 1 + rest.length = base + (rest.length + 1) := by omega
    show wrappers_from base ((f, a) :: (rest ++ [(func, args)])) = _
    simp only [List.cons_append, wrappers_from, ih, List.length_cons, e]

theorem futures_from_succ (n : Nat) :
    ∀ base : Nat,
      futures_from base (n + 1) = futures_from base n ++ [{ internal := some (base + n) }] := by
  induction n with
  | zero => intro base; simp [futures_from]
  | succ n ih =>
    intro base
    have e : base + 1 + n = base + (n + 1) := by omega
    rw [futures_from, ih (base + 1), e]
    simp only [futures_from, List.cons_append]

theorem futures_from_length (n : Nat) : ∀ base : Nat, (futures_from base n).length = n := by
  induction n with
  | zero => intro base; rfl
  | succ n ih => intro base; simp [futures_from, ih]

theorem futures_from_poll {A T E : Type} (subs : List (function A T E × A)) :
    ∀ (base : Nat) (final : Heap T E),
      (∀ w ∈ wrappers_from base subs,
        final[w.promise]? = some (shared_state.of_outcome (w.func w.args))) →
      ∀ fut ∈ futures_from base subs.length, fut.poll final = some future_status.ready := by
  induction subs with
  | nil => intro base final _ fut hfut; simp [futures_from] at hfut
  | cons sub rest ih =>
    intro base final h fut hfut
    obtain ⟨func, args⟩ := sub
    simp only [List.length_cons, futures_from, List.mem_cons] at hfut
    rcases hfut with hfut | hfut
    · subst hfut
      have hhead := h { promise := base, func := func, args := args }
        (by simp [wrappers_from])
      simp only at hhead
      rw [poll_of_cell final base _ hhead, of_outcome_ready]
      rfl
    · exact ih (base + 1) final (fun w hw => h w (by simp [wrappers_from, hw])) fut hfut

theorem turn_absent {A T E : Type} (m : Machine A T E) (i : Nat)
    (h : m.threads[i]? = none) : m.turn i = m := by
  simp [Machine.turn, h]

theorem turn_gone {A T E : Type} (m : Machine A T E) (i : Nat)
    (h : m.threads[i]? = some worker_state.gone) : m.turn i = m := by
  simp [Machine.turn, h]

theorem turn_blocked {A T E : Type} (m : Machine A T E) (i : Nat)
    (hflag : m.pool.shutdownFlag = false) (h : m.threads[i]? = some worker_state.idle)
    (hq : m.pool.queue = []) : m.turn i = m := by
  simp [Machine.turn, h, hflag, hq, AtomicQueue.pop]

theorem turn_pop {A T E : Type} (m : Machine A T E) (i : Nat) (w : wrapper A T E)
    (rest : List (wrapper A T E))
    (hflag : m.pool.shutdownFlag = false) (h : m.threads[i]? = some worker_state.idle)
    (hq : m.pool.queue = w :: rest) :
    m.turn i
      = { m with pool := { m.pool with queue := rest },
                 threads := m.threads.set i (worker_state.holding w) } := by
  simp [Machine.turn, h, hflag, hq, AtomicQueue.pop]

theorem turn_execute {A T E : Type} (m : Machine A T E) (i : Nat) (w : wrapper A T E)
    (h : m.threads[i]? = some (worker_state.holding w))
    (hcell : m.heap[w.promise]? = some shared_state.unset) :
    m.turn i
      = { m with heap := (w.call m.heap).1,
                 threads := m.threads.set i worker_state.idle,
                 executed := m.executed ++ [w] } := by
  have hc := call_unset w m.heap hcell
  simp [Machine.turn, h, hc]

theorem held_replicate_idle {A T E : Type} (n : Nat) :
    held (List.replicate n (worker_state.idle : worker_state A T E)) = [] := by
  induction n with
  | zero => rfl
  | succ n ih => simpa [List.replicate_succ, held] using ih

theorem inv_start {A T E : Type} (numWorkers : Nat) (heap : Heap T E) :
    Machine.Inv numWorkers heap.length (Machine.start numWorkers heap : Machine A T E) [] where
  flag := rfl
  threads := by simp [Machine.start]
  alive := by
    intro t ht
    have := List.eq_of_mem_replicate ht
    rw [this]
    intro hcontra
    cases hcontra
  heap_length := rfl
  perm := by simp [Machine.start, held_replicate_idle, wrappers_from]
  pending := by
    intro w hw
    simp [Machine.start, held_replicate_idle] at hw
  done := by
    intro w hw
    simp [Machine.start] at hw
  handles := rfl

theorem inv_submit {A T E : Type} (numWorkers base : Nat) (m : Machine A T E)
    (subs : List (function A T E × A)) (func : function A T E) (args : A)
    (h : Machine.Inv numWorkers base m subs) :
    Machine.Inv numWorkers base (m.submit func args) (subs ++ [(func, args)]) where
  flag := h.flag
  threads := h.threads
  alive := h.alive
  heap_length := by
    show (m.heap ++ [shared_state.unset]).length = _
    simp [h.heap_length]
    omega
  perm := by
    show (m.executed ++ (held m.threads
      ++ (m.pool.queue ++ [dispatched m.heap func args]))).Perm _
    unfold dispatched
    rw [wrappers_from_append, h.heap_length, ← List.append_assoc (held m.threads),
      ← List.append_assoc m.executed]
    exact List.Perm.append_right _ h.perm
  pending := by
    intro w hw
    have hw1 : w ∈ (held m.threads ++ m.pool.queue) ++ [dispatched m.heap func args] := by
      simpa [Machine.submit, dispatchTask_queue, dispatched, List.append_assoc] using hw
    rcases List.mem_append.mp hw1 with hold | hnew
    · exact dispatchTask_old m.pool m.heap func args _ _ (h.pending w hold)
    · rw [List.mem_singleton.mp hnew]
      exact dispatchTask_cell m.pool m.heap func args
  done := by
    intro w hw
    exact dispatchTask_old m.pool m.heap func args _ _ (h.done w hw)
  handles := by
    show m.handles ++ [({ internal := some m.heap.length } : Future)] = _
    rw [h.handles, h.heap_length, List.length_append, List.length_singleton, futures_from_succ]

theorem inv_pop {A T E : Type} (numWorkers base : Nat) (m : Machine A T E)
    (subs : List (function A T E × A)) (i : Nat) (w : wrapper A T E)
    (rest : List (wrapper A T E)) (h : Machine.Inv numWorkers base m subs)
    (hi : m.threads[i]? = some worker_state.idle) (hq : m.pool.queue = w :: rest) :
    Machine.Inv numWorkers base
      { m with pool := { m.pool with queue := rest },
               threads := m.threads.set i (worker_state.holding w) } subs := by
  have hheld := held_set_holding w m.threads i hi
  have hperm : (held (m.threads.set i (worker_state.holding w)) ++ rest).Perm
      (held m.threads ++ m.pool.queue) := by
    rw [hq]
    exact (List.Perm.append_right rest hheld).trans List.perm_middle.symm
  exact
    { flag := h.flag
      threads := by simp [h.threads]
      alive := by
        intro t ht
        rcases List.mem_or_eq_of_mem_set ht with hold | hnew
        · exact h.alive t hold
        · rw [hnew]
          intro hcontra
          cases hcontra
      heap_length := h.heap_length
      perm := (List.Perm.append_left m.executed hperm).trans h.perm
      pending := fun w1 hw1 => h.pending w1 ((List.Perm.mem_iff hperm).mp hw1)
      done := h.done
      handles := h.handles }

theorem inv_execute {A T E : Type} (numWorkers base : Nat) (m : Machine A T E)
    (subs : List (function A T E × A)) (i : Nat) (w : wrapper A T E)
    (h : Machine.Inv numWorkers base m subs)
    (hi : m.threads[i]? = some (worker_state.holding w)) :
    m.heap[w.promise]? = some shared_state.unset
    ∧ Machine.Inv numWorkers base
        { m with heap := (w.call m.heap).1,
                 threads := m.threads.set i worker_state.idle,
                 executed := m.executed ++ [w] } subs := by
  have hheld := held_set_idle w m.threads i hi
  have hwmem : w ∈ held m.threads ++ m.pool.queue :=
    List.mem_append_left _ ((List.Perm.mem_iff hheld).mpr (List.mem_cons_self _ _))
  have hcell := h.pending w hwmem
  have hperm : (held m.threads ++ m.pool.queue).Perm
      (w :: (held (m.threads.set i worker_state.idle) ++ m.pool.queue)) :=
    List.Perm.append_right m.pool.queue hheld
  have hall : (wrappers_from base subs).Perm
      (m.executed ++ w :: (held (m.threads.set i worker_state.idle) ++ m.pool.queue)) :=
    h.perm.symm.trans (List.Perm.append_left m.executed hperm)
  have hnd : ((m.executed
      ++ w :: (held (m.threads.set i worker_state.idle) ++ m.pool.queue)).map
        (fun w => w.promise)).Nodup :=
    (List.Perm.nodup_iff (List.Perm.map _ hall)).mp (wrappers_from_nodup subs base)
  rw [List.map_append, List.map_cons] at hnd
  have hnd2 := (List.nodup_cons.mp (List.nodup_append.mp hnd).2.1).1
  refine ⟨hcell, ?_⟩
  exact
    { flag := h.flag
      threads := by simp [h.threads]
      alive := by
        intro t ht
        rcases List.mem_or_eq_of_mem_set ht with hold | hnew
        · exact h.alive t hold
        · rw [hnew]
          intro hcontra
          cases hcontra
      heap_length := by
        show (w.call m.heap).1.length = _
        rw [call_length]
        exact h.heap_length
      perm := by
        show ((m.executed ++ [w])
          ++ (held (m.threads.set i worker_state.idle) ++ m.pool.queue)).Perm _
        rw [List.append_assoc, List.singleton_append]
        exact hall.symm
      pending := by
        intro w1 hw1
        show (w.call m.heap).1[w1.promise]? = _
        have hne : w.promise ≠ w1.promise := by
          intro heq
          apply hnd2
          rw [heq]
          exact List.mem_map_of_mem (fun w => w.promise) hw1
        rw [call_other w m.heap w1.promise hne]
        exact h.pending w1 ((List.Perm.mem_iff hperm).mpr (List.mem_cons_of_mem _ hw1))
      done := by
        intro w1 hw1
        show (w.call m.heap).1[w1.promise]? = _
        rcases List.mem_append.mp hw1 with hold | hnew
        · exact call_ready_stable w m.heap _ _ (h.done w1 hold) (of_outcome_ready _)
        · rw [List.mem_singleton.mp hnew]
          exact call_own w m.heap hcell
      handles := h.handles }

theorem inv_turn {A T E : Type} (numWorkers base : Nat) (m : Machine A T E)
    (subs : List (function A T E × A)) (i : Nat) (h : Machine.Inv numWorkers base m subs) :
    Machine.Inv numWorkers base (m.turn i) subs := by
  cases hi : m.threads[i]? with
  | none => rw [turn_absent m i hi]; exact h
  | some t =>
    cases t with
    | gone => rw [turn_gone m i hi]; exact h
    | idle =>
      cases hq : m.pool.queue with
      | nil => rw [turn_blocked m i h.flag hi hq]; exact h
      | cons w rest =>
        rw [turn_pop m i w rest h.flag hi hq]
        exact inv_pop numWorkers base m subs i w rest h hi hq
    | holding w =>
      obtain ⟨hcell, hinv⟩ := inv_execute numWorkers base m subs i w h hi
      rw [turn_execute m i w hi hcell]
      exact hinv

theorem run_actions_cons {A T E : Type} (a : Action A T E) (sched : List (Action A T E))
    (m : Machine A T E) : run_actions (a :: sched) m = run_actions sched (a.apply m) := rfl

theorem run_actions_append {A T E : Type} (sched1 sched2 : List (Action A T E))
    (m : Machine A T E) :
    run_actions (sched1 ++ sched2) m = run_actions sched2 (run_actions sched1 m) := by
  simp [run_actions, List.foldl_append]

theorem inv_run {A T E : Type} (numWorkers base : Nat) (sched : List (Action A T E)) :
    ∀ (m : Machine A T E) (subs : List (function A T E × A)),
      Machine.Inv numWorkers base m subs →
        Machine.Inv numWorkers base (run_actions sched m) (subs ++ submissions sched) := by
  induction sched with
  | nil => intro m subs h; simpa [run_actions, submissions] using h
  | cons a sched ih =>
    intro m subs h
    rw [run_actions_cons]
    cases a with
    | submit func args =>
      have := ih _ _ (inv_submit numWorkers base m subs func args h)
      simpa [submissions, Action.apply, List.append_assoc] using this
    | turn i =>
      have := ih _ _ (inv_turn numWorkers base m subs i h)
      simpa [submissions, Action.apply] using this

theorem inv_turns {A T E : Type} (numWorkers base : Nat) (tail : List Nat)
    (m : Machine A T E) (subs : List (function A T E × A))
    (h : Machine.Inv numWorkers base m subs) :
    Machine.Inv numWorkers base (run_actions (tail.map Action.turn) m) subs := by
  have hsub : ∀ l : List Nat, submissions (l.map (Action.turn : Nat → Action A T E)) = [] := by
    intro l
    induction l with
    | nil => rfl
    | cons i l ih => simpa [submissions] using ih
  have := inv_run numWorkers base (tail.map Action.turn) m subs h
  rwa [hsub, List.append_nil] at this

theorem turn_work {A T E : Type} (numWorkers base : Nat) (m : Machine A T E)
    (subs : List (function A T E × A)) (j : Nat) (h : Machine.Inv numWorkers base m subs) :
    (m.turn j).work_left + 1 = m.work_left
      ∨ (m.turn j = m
          ∧ (j < numWorkers → m.pool.queue = [] ∧ m.threads[j]? = some worker_state.idle)) := by
  cases hj : m.threads[j]? with
  | none =>
    right
    refine ⟨turn_absent m j hj, ?_⟩
    intro hlt
    rw [List.getElem?_eq_none_iff, h.threads] at hj
    omega
  | some t =>
    cases t with
    | gone =>
      exact absurd rfl (h.alive _ (List.getElem?_mem hj))
    | idle =>
      cases hq : m.pool.queue with
      | nil => exact Or.inr ⟨turn_blocked m j h.flag hj hq, fun _ => ⟨rfl, rfl⟩⟩
      | cons w rest =>
        left
        rw [turn_pop m j w rest h.flag hj hq]
        have hlen := (held_set_holding w m.threads j hj).length_eq
        simp only [Machine.work_left, hq, List.length_cons] at hlen ⊢
        omega
    | holding w =>
      left
      obtain ⟨hcell, _⟩ := inv_execute numWorkers base m subs j w h hj
      rw [turn_execute m j w hj hcell]
      have hlen := (held_set_idle w m.threads j hj).length_eq
      simp only [Machine.work_left, List.length_cons] at hlen ⊢
      omega

theorem quiet_turn {A T E : Type} (numWorkers base : Nat) (m : Machine A T E)
    (subs : List (function A T E × A)) (i j : Nat) (h : Machine.Inv numWorkers base m subs)
    (hq : m.pool.queue = []) (hi : m.threads[i]? = some worker_state.idle) :
    (m.turn j).pool.queue = [] ∧ (m.turn j).threads[i]? = some worker_state.idle := by
  cases hj : m.threads[j]? with
  | none => rw [turn_absent m j hj]; exact ⟨hq, hi⟩
  | some t =>
    cases t with
    | gone => rw [turn_gone m j hj]; exact ⟨hq, hi⟩
    | idle => rw [turn_blocked m j h.flag hj hq]; exact ⟨hq, hi⟩
    | holding w =>
      obtain ⟨hcell, _⟩ := inv_execute numWorkers base m subs j w h hj
      rw [turn_execute m j w hj hcell]
      have hne : j ≠ i := by
        intro heq
        subst heq
        rw [hi] at hj
        cases hj
      exact ⟨hq, by simpa [List.getElem?_set_ne hne] using hi⟩

theorem quiet_turns {A T E : Type} (numWorkers base : Nat) (i : Nat) (tail : List Nat) :
    ∀ (m : Machine A T E) (subs : List (function A T E × A)),
      Machine.Inv numWorkers base m subs →
      m.pool.queue = [] → m.threads[i]? = some worker_state.idle →
        (run_actions (tail.map Action.turn) m).pool.queue = []
          ∧ (run_actions (tail.map Action.turn) m).threads[i]? = some worker_state.idle := by
  induction tail with
  | nil => intro m subs _ hq hi; exact ⟨hq, hi⟩
  | cons j tail ih =>
    intro m subs h hq hi
    rw [List.map_cons, run_actions_cons]
    obtain ⟨hq1, hi1⟩ := quiet_turn numWorkers base m subs i j h hq hi
    exact ih _ subs (inv_turn numWorkers base m subs j h) hq1 hi1

theorem turns_count {A T E : Type} (numWorkers base : Nat) (i : Nat) (hi : i < numWorkers)
    (tail : List Nat) :
    ∀ (m : Machine A T E) (subs : List (function A T E × A)),
      Machine.Inv numWorkers base m subs →
        ((run_actions (tail.map Action.turn) m).pool.queue = []
          ∧ (run_actions (tail.map Action.turn) m).threads[i]? = some worker_state.idle)
        ∨ tail.count i + (run_actions (tail.map Action.turn) m).work_left ≤ m.work_left := by
  induction tail with
  | nil => intro m subs _; right; simp [run_actions]
  | cons j tail ih =>
    intro m subs h
    rw [List.map_cons, run_actions_cons]
    show _ ∨ (j :: tail).count i + (run_actions (tail.map Action.turn) (m.turn j)).work_left ≤ _
    rcases turn_work numWorkers base m subs j h with hwork | ⟨hsame, hquiet⟩
    · rcases ih (m.turn j) subs (inv_turn numWorkers base m subs j h) with hdone | hle
      · exact Or.inl hdone
      · right
        have hc : (j :: tail).count i ≤ tail.count i + 1 := by
          rw [List.count_cons]
          split <;> omega
        omega
    · show _ ∨ _
      by_cases hji : j = i
      · subst hji
        obtain ⟨hq, hidle⟩ := hquiet hi
        left
        have := quiet_turns numWorkers base j tail m subs h hq hidle
        simpa [Action.apply, hsame] using this
      · rcases ih (m.turn j) subs (inv_turn numWorkers base m subs j h) with hdone | hle
        · exact Or.inl hdone
        · right
          have hc : (j :: tail).count i = tail.count i := by
            rw [List.count_cons]
            simp [hji]
          rw [hsame] at hle
          simp only [Action.apply, hsame]
          omega

/-- In a running pool with at least one worker, after any interleaving `sched` of
submissions and worker moves followed by worker moves `tail` in which every worker has more
turns than there can be work left, the queue is empty and no worker holds a thunk. -/
theorem pool_drained {A T E : Type} (numWorkers : Nat) (heap : Heap T E)
    (sched : List (Action A T E)) (tail : List Nat) (hworkers : 1 ≤ numWorkers)
    (hfair : ∀ i, i < numWorkers → 2 * (submissions sched).length + 1 ≤ tail.count i) :
    Machine.Inv numWorkers heap.length
        (run_actions (sched ++ tail.map Action.turn) (Machine.start numWorkers heap))
        (submissions sched)
    ∧ (run_actions (sched ++ tail.map Action.turn)
        (Machine.start numWorkers heap)).pool.queue = []
    ∧ held (run_actions (sched ++ tail.map Action.turn)
        (Machine.start numWorkers heap)).threads = [] := by
  have h1 := inv_run numWorkers heap.length sched (Machine.start numWorkers heap) []
    (inv_start numWorkers heap)
  rw [List.nil_append] at h1
  have h2 := inv_turns numWorkers heap.length tail _ _ h1
  have hlen := h1.perm.length_eq
  rw [wrappers_from_length] at hlen
  simp only [List.length_append] at hlen
  have hwork : (run_actions sched (Machine.start numWorkers heap)).work_left
      ≤ 2 * (submissions sched).length := by
    unfold Machine.work_left
    omega
  have hquiet : ∀ i, i < numWorkers →
      (run_actions (tail.map Action.turn)
          (run_actions sched (Machine.start numWorkers heap))).pool.queue = []
      ∧ (run_actions (tail.map Action.turn)
          (run_actions sched (Machine.start numWorkers heap))).threads[i]?
        = some worker_state.idle := by
    intro i hi
    rcases turns_count numWorkers heap.length i hi tail _ _ h1 with hdone | hle
    · exact hdone
    · have := hfair i hi
      omega
  rw [run_actions_append]
  refine ⟨h2, (hquiet 0 (by omega)).1, ?_⟩
  apply held_all_idle
  intro i hi
  rw [h2.threads] at hi
  exact (hquiet i hi).2

/-! ## The claims -/

/-- C1: for every callable `func`, arguments `args` and value `v` such that `func(args)`
returns `v`: after `dispatchTask(func, args)` the queue ends with the closure of the
submission, and once that closure has been executed, `get()` on the returned `Future` returns
exactly `v`. Other events may come in between: `before` (further submissions, executions of
closures on other promises) and `after` (any events at all). -/
theorem get_returns_value {A T E : Type} (pool : ThreadPool A T E) (heap : Heap T E)
    (func : function A T E) (args : A) (v : T) (before after : List (Event A T E))
    (hv : func args = .ok v)
    (hfirst : before.any (Event.executes heap.length) = false) :
    (pool.dispatchTask heap func args).1.queue = pool.queue ++ [dispatched heap func args]
    ∧ ((pool.dispatchTask heap func args).2.2.get
        (run_events (before ++ Event.execute (dispatched heap func args) :: after)
          ((pool.dispatchTask heap func args).1, (pool.dispatchTask heap func args).2.1)).2).1
      = get_result.returned v := by
  refine ⟨rfl, ?_⟩
  have h := cell_after_execution pool heap func args before after hfirst
  rw [hv] at h
  rw [dispatchTask_future, dispatched, get_of_value _ _ v h]

theorem get_returns_value_witness :
    (example_pool.dispatchTask [] divide 5).1.queue
      = example_pool.queue ++ [dispatched [] divide 5]
    ∧ ((example_pool.dispatchTask [] divide 5).2.2.get
        (run_events
          ([Event.dispatch divide 0] ++ Event.execute (dispatched [] divide 5)
            :: [Event.execute { promise := 1, func := divide, args := 0 }])
          ((example_pool.dispatchTask [] divide 5).1,
            (example_pool.dispatchTask [] divide 5).2.1)).2).1
      = get_result.returned 20 :=
  get_returns_value example_pool [] divide 5 20 [Event.dispatch divide 0]
    [Event.execute { promise := 1, func := divide, args := 0 }] rfl (by decide)

/-- C2: for every callable `func`, arguments `args` and failure `F` such that `func(args)`
raises `F`: after `dispatchTask(func, args)` and the execution of the closure it enqueued,
`get()` on the returned `Future` returns no value and raises that same `F`. Other events may
come in between, as in C1. -/
theorem get_raises_failure {A T E : Type} (pool : ThreadPool A T E) (heap : Heap T E)
    (func : function A T E) (args : A) (F : exception_ptr E)
    (before after : List (Event A T E))
    (hF : func args = .error F)
    (hfirst : before.any (Event.executes heap.length) = false) :
    (pool.dispatchTask heap func args).1.queue = pool.queue ++ [dispatched heap func args]
    ∧ ((pool.dispatchTask heap func args).2.2.get
        (run_events (before ++ Event.execute (dispatched heap func args) :: after)
          ((pool.dispatchTask heap func args).1, (pool.dispatchTask heap func args).2.1)).2).1
      = get_result.raised F := by
  refine ⟨rfl, ?_⟩
  have h := cell_after_execution pool heap func args before after hfirst
  rw [hF] at h
  rw [dispatchTask_future, dispatched, get_of_exception _ _ F h]

theorem get_raises_failure_witness :
    (example_pool.dispatchTask [] divide 0).1.queue
      = example_pool.queue ++ [dispatched [] divide 0]
    ∧ ((example_pool.dispatchTask [] divide 0).2.2.get
        (run_events
          ([Event.dispatch divide 4] ++ Event.execute (dispatched [] divide 0)
            :: [Event.execute { promise := 1, func := divide, args := 4 }])
          ((example_pool.dispatchTask [] divide 0).1,
            (example_pool.dispatchTask [] divide 0).2.1)).2).1
      = get_result.raised (exception_ptr.thrown 1) :=
  get_raises_failure example_pool [] divide 0 (exception_ptr.thrown 1) [Event.dispatch divide 4]
    [Event.execute { promise := 1, func := divide, args := 4 }] rfl (by decide)

/-- C3: for every callable and arguments, the execution of the closure built by
`dispatchTask` completes normally: whether the callable returns or raises, no exception
leaves the closure, and the outcome is stored in the result cell. `before` are events
between the submission and the execution (further submissions, executions of closures on
other promises). -/
theorem thunk_completes_normally {A T E : Type} (pool : ThreadPool A T E) (heap : Heap T E)
    (func : function A T E) (args : A) (before : List (Event A T E))
    (hfirst : before.any (Event.executes heap.length) = false) :
    (pool.dispatchTask heap func args).1.queue = pool.queue ++ [dispatched heap func args]
    ∧ ((dispatched heap func args).call
        (run_events before
          ((pool.dispatchTask heap func args).1, (pool.dispatchTask heap func args).2.1)).2).2
      = none
    ∧ ((dispatched heap func args).call
        (run_events before
          ((pool.dispatchTask heap func args).1,
            (pool.dispatchTask heap func args).2.1)).2).1[heap.length]?
      = some (shared_state.of_outcome (func args)) := by
  have h1 := events_unset_stable before
    ((pool.dispatchTask heap func args).1, (pool.dispatchTask heap func args).2.1) heap.length
    (dispatchTask_cell pool heap func args) hfirst
  refine ⟨rfl, ?_, ?_⟩
  · rw [call_unset (dispatched heap func args) _ h1]
  · exact call_own (dispatched heap func args) _ h1

theorem thunk_completes_normally_witness :
    (example_pool.dispatchTask [] divide 0).1.queue
      = example_pool.queue ++ [dispatched [] divide 0]
    ∧ ((dispatched [] divide 0).call
        (run_events [Event.dispatch divide 4, Event.execute (dispatched [shared_state.unset] divide 4)]
          ((example_pool.dispatchTask [] divide 0).1,
            (example_pool.dispatchTask [] divide 0).2.1)).2).2
      = none
    ∧ ((dispatched [] divide 0).call
        (run_events [Event.dispatch divide 4, Event.execute (dispatched [shared_state.unset] divide 4)]
          ((example_pool.dispatchTask [] divide 0).1,
            (example_pool.dispatchTask [] divide 0).2.1)).2).1[([] : Heap Nat Nat).length]?
      = some (shared_state.of_outcome (divide 0)) :=
  thunk_completes_normally example_pool [] divide 0
    [Event.dispatch divide 4, Event.execute (dispatched [shared_state.unset] divide 4)] (by decide)

/-- C4, as stated, fails on a submission of `divide 5` whose closure is destroyed in the
queue without having been executed (no step executes a closure on its promise): the
destruction abandons the promise, `poll()` on the handle is `ready`, and `get()` raises
`future_error(broken_promise)`. -/
theorem poll_ready_without_execution :
    ([Step.destroy (dispatched [] divide 5)] : List (Step Nat Nat Nat)).any
        (Step.executes (dispatched ([] : Heap Nat Nat) divide 5).promise) = false
    ∧ (example_pool.dispatchTask [] divide 5).2.2.poll
        (run_steps [Step.destroy (dispatched [] divide 5)]
          ((example_pool.dispatchTask [] divide 5).1,
            (example_pool.dispatchTask [] divide 5).2.1)).2
      = some future_status.ready
    ∧ (example_pool.dispatchTask [] divide 5).2.2.isReady
        (run_steps [Step.destroy (dispatched [] divide 5)]
          ((example_pool.dispatchTask [] divide 5).1,
            (example_pool.dispatchTask [] divide 5).2.1)).2
      = some true
    ∧ ((example_pool.dispatchTask [] divide 5).2.2.get
        (run_steps [Step.destroy (dispatched [] divide 5)]
          ((example_pool.dispatchTask [] divide 5).1,
            (example_pool.dispatchTask [] divide 5).2.1)).2).1
      = get_result.raised (exception_ptr.future_error future_errc.broken_promise) := by
  decide

/-- C4, amended: for every submission, `poll()` on the returned `Future` is `timeout`
(pending) and `isReady()` is false at the return of `dispatchTask` and after every list of
steps in which no closure on its promise is executed or destroyed; it is `ready` and
`isReady()` is true after every list of steps in which one is executed, whatever the callable
did, or destroyed; and once `poll()` is `ready` it is `ready` after any further steps
`later`. -/
theorem poll_pending_until_settled {A T E : Type} (pool : ThreadPool A T E) (heap : Heap T E)
    (func : function A T E) (args : A) (steps later : List (Step A T E)) :
    (pool.dispatchTask heap func args).1.queue = pool.queue ++ [dispatched heap func args]
    ∧ (pool.dispatchTask heap func args).2.2.poll (pool.dispatchTask heap func args).2.1
        = some future_status.timeout
    ∧ (pool.dispatchTask heap func args).2.2.isReady (pool.dispatchTask heap func args).2.1
        = some false
    ∧ (pool.dispatchTask heap func args).2.2.poll
          (run_steps steps
            ((pool.dispatchTask heap func args).1, (pool.dispatchTask heap func args).2.1)).2
        = some (if steps.any (fun st =>
                  st.executes (dispatched heap func args).promise
                    || st.destroys (dispatched heap func args).promise)
                then future_status.ready else future_status.timeout)
    ∧ (pool.dispatchTask heap func args).2.2.isReady
          (run_steps steps
            ((pool.dispatchTask heap func args).1, (pool.dispatchTask heap func args).2.1)).2
        = some (steps.any (fun st =>
                  st.executes (dispatched heap func args).promise
                    || st.destroys (dispatched heap func args).promise))
    ∧ ((pool.dispatchTask heap func args).2.2.poll
          (run_steps steps
            ((pool.dispatchTask heap func args).1, (pool.dispatchTask heap func args).2.1)).2
        = some future_status.ready →
       (pool.dispatchTask heap func args).2.2.poll
          (run_steps (steps ++ later)
            ((pool.dispatchTask heap func args).1, (pool.dispatchTask heap func args).2.1)).2
        = some future_status.ready) := by
  refine ⟨rfl, poll_steps pool heap func args [], isReady_steps pool heap func args [],
    poll_steps pool heap func args steps, isReady_steps pool heap func args steps, ?_⟩
  intro hready
  rw [poll_steps] at hready
  rw [poll_steps, List.any_append]
  cases hany : steps.any (fun st => st.executes heap.length || st.destroys heap.length) with
  | false => rw [hany] at hready; simp at hready
  | true => rfl

theorem poll_pending_until_settled_witness :
    (example_pool.dispatchTask [] divide 0).2.2.poll
        (run_steps ([Step.event (Event.execute (dispatched [] divide 0))]
            ++ [Step.destroy (dispatched [] divide 0), Step.event (Event.dispatch divide 5)])
          ((example_pool.dispatchTask [] divide 0).1,
            (example_pool.dispatchTask [] divide 0).2.1)).2
      = some future_status.ready :=
  (poll_pending_until_settled example_pool [] divide 0
    [Step.event (Event.execute (dispatched [] divide 0))]
    [Step.destroy (dispatched [] divide 0), Step.event (Event.dispatch divide 5)]).2.2.2.2.2
    (by decide)

/-- C5: for every list of `dispatchTask` calls made one after another on a pool, each call
appends exactly one closure at the tail of the queue and removes or reorders none, so that the
queue holds what it held before followed by the closures of the submissions in submission
order; and on a pool whose queue was empty, a single worker that pops the head again and again
executes exactly these closures, one after another in submission order, and leaves the queue
empty. -/
theorem queue_in_submission_order {A T E : Type} (pool : ThreadPool A T E) (heap : Heap T E)
    (func : function A T E) (args : A) (subs : List (function A T E × A)) :
    (pool.dispatchTask heap func args).1.queue = pool.queue ++ [dispatched heap func args]
    ∧ (dispatch_all subs pool heap).1.queue = pool.queue ++ wrappers_from heap.length subs
    ∧ (wrappers_from heap.length subs).map (fun w => (w.func, w.args)) = subs
    ∧ (pool.queue = [] →
        (worker_loop false (dispatch_all subs pool heap).1.queue
            (dispatch_all subs pool heap).2.1).1 = wrappers_from heap.length subs
        ∧ ((worker_loop false (dispatch_all subs pool heap).1.queue
            (dispatch_all subs pool heap).2.1).1).map (fun w => (w.func, w.args)) = subs
        ∧ (worker_loop false (dispatch_all subs pool heap).1.queue
            (dispatch_all subs pool heap).2.1).2.1 = []) := by
  have hmap : ∀ (l : List (function A T E × A)) (base : Nat),
      (wrappers_from base l).map (fun w => (w.func, w.args)) = l := by
    intro l
    induction l with
    | nil => intro base; rfl
    | cons sub rest ih =>
      intro base
      obtain ⟨f, a⟩ := sub
      simp [wrappers_from, ih]
  refine ⟨rfl, dispatch_all_queue subs pool heap, hmap subs heap.length, ?_⟩
  intro hq
  have hloop := worker_loop_fresh (wrappers_from heap.length subs)
    (heap ++ List.replicate subs.length shared_state.unset)
    (wrappers_from_nodup subs heap.length)
    (fun w hw => wrappers_from_unset subs heap w hw)
  rw [dispatch_all_queue, dispatch_all_heap, hq, List.nil_append, hloop]
  exact ⟨rfl, hmap subs heap.length, rfl⟩

theorem queue_in_submission_order_witness :
    ((worker_loop false (dispatch_all [(divide, 5), (divide, 0), (divide, 4)] example_pool []).1.queue
        (dispatch_all [(divide, 5), (divide, 0), (divide, 4)] example_pool []).2.1).1).map
          (fun w => (w.func, w.args))
      = [(divide, 5), (divide, 0), (divide, 4)] :=
  ((queue_in_submission_order example_pool [] divide 1
    [(divide, 5), (divide, 0), (divide, 4)]).2.2.2 rfl).2.1

/-- C7: `dispatchTask` accepts a submission in every pool state: for every value of the
shutdown flag, every set of workers (the empty one included), every queue and heap and every
callable and arguments, it returns a valid handle on a fresh, unset result cell and appends
the closure of the submission to the queue, and it leaves the shutdown flag and the workers
unchanged. -/
theorem dispatchTask_always_accepts {A T E : Type} (shutdownFlag : Bool)
    (workers : List thread) (queue : AtomicQueue (wrapper A T E)) (heap : Heap T E)
    (func : function A T E) (args : A) :
    (ThreadPool.dispatchTask
        { shutdownFlag := shutdownFlag, workers := workers, queue := queue } heap func args).1
      = { shutdownFlag := shutdownFlag, workers := workers,
          queue := queue ++ [dispatched heap func args] }
    ∧ (ThreadPool.dispatchTask
        { shutdownFlag := shutdownFlag, workers := workers, queue := queue } heap func args).2.2
      = { internal := some (dispatched heap func args).promise }
    ∧ (ThreadPool.dispatchTask
        { shutdownFlag := shutdownFlag, workers := workers, queue := queue } heap func args).2.1
      = heap ++ [shared_state.unset]
    ∧ (ThreadPool.dispatchTask
        { shutdownFlag := shutdownFlag, workers := workers, queue := queue }
          heap func args).2.1[(dispatched heap func args).promise]?
      = some shared_state.unset
    ∧ heap[(dispatched heap func args).promise]? = none := by
  refine ⟨rfl, rfl, rfl, dispatchTask_cell _ heap func args, ?_⟩
  simp [dispatched]

/-- C10: the result cell is single-assignment. It is unset at the return of `dispatchTask`;
the first execution of its closure stores the outcome of the call, a value or a failure; a
second execution of the same closure, or the execution of any closure `again` on the same
promise, leaves the whole heap as it was; and after any further events `evs` the cell still
holds the outcome that the first execution stored. -/
theorem cell_single_assignment {A T E : Type} (pool : ThreadPool A T E) (heap : Heap T E)
    (func : function A T E) (args : A) (again : function A T E) (again_args : A)
    (evs : List (Event A T E)) :
    (pool.dispatchTask heap func args).1.queue = pool.queue ++ [dispatched heap func args]
    ∧ (pool.dispatchTask heap func args).2.1[(dispatched heap func args).promise]?
        = some shared_state.unset
    ∧ ((dispatched heap func args).call
          (pool.dispatchTask heap func args).2.1).1[(dispatched heap func args).promise]?
        = some (shared_state.of_outcome (func args))
    ∧ (shared_state.of_outcome (func args) : shared_state T E).is_ready = true
    ∧ ((dispatched heap func args).call
          ((dispatched heap func args).call (pool.dispatchTask heap func args).2.1).1).1
        = ((dispatched heap func args).call (pool.dispatchTask heap func args).2.1).1
    ∧ (wrapper.call
          { promise := (dispatched heap func args).promise, func := again, args := again_args }
          ((dispatched heap func args).call (pool.dispatchTask heap func args).2.1).1).1
        = ((dispatched heap func args).call (pool.dispatchTask heap func args).2.1).1
    ∧ (run_events evs
          ((pool.dispatchTask heap func args).1,
            ((dispatched heap func args).call
              (pool.dispatchTask heap func args).2.1).1)).2[(dispatched heap func args).promise]?
        = some (shared_state.of_outcome (func args)) := by
  have hcell := dispatchTask_cell pool heap func args
  have hown := call_own (dispatched heap func args) _ hcell
  refine ⟨rfl, hcell, hown, of_outcome_ready _, ?_, ?_, ?_⟩
  · rw [call_satisfied (dispatched heap func args) _ _ hown (of_outcome_ready _)]
  · rw [call_satisfied
      { promise := (dispatched heap func args).promise, func := again, args := again_args }
      _ _ hown (of_outcome_ready _)]
  · exact events_ready_stable evs _ _ _ hown (of_outcome_ready _)

/-- C8: each submission has its own result cell and the execution of a closure writes
only that cell. For every list of submissions `subs` and every order `order` in which their
closures are each executed once (a permutation of the enqueued closures), the handle of
submission `i` yields the outcome of callable `i` on arguments `i`; the handles are pairwise
distinct, a closure leaves every cell other than its own as it was, and so do the executions
together for the cells that existed before. In particular, for the 100 submissions of
`i * i`, `i` in `0 .. 99`, and every order `sq_order`, the values read from the 100 handles
are the squares of `0 .. 99`, each once. -/
theorem results_independent_of_order {A T E : Type} (pool : ThreadPool A T E)
    (heap : Heap T E) (subs : List (function A T E × A)) (order : List (wrapper A T E))
    (sq_pool : ThreadPool Nat Nat E) (sq_heap : Heap Nat E)
    (sq_order : List (wrapper Nat Nat E))
    (hperm : order.Perm (wrappers_from heap.length subs))
    (hsq : sq_order.Perm (wrappers_from sq_heap.length square_tasks)) :
    (dispatch_all subs pool heap).1.queue = pool.queue ++ wrappers_from heap.length subs
    ∧ (dispatch_all subs pool heap).2.2.map
          (fun fut => (fut.get (call_all order (dispatch_all subs pool heap).2.1)).1)
        = subs.map (fun sub => get_result.of_outcome (sub.1 sub.2))
    ∧ (dispatch_all subs pool heap).2.2.Nodup
    ∧ (∀ (w : wrapper A T E) (h : Heap T E) (p : Nat),
        w.promise ≠ p → (w.call h).1[p]? = h[p]?)
    ∧ (∀ p : Nat, p < heap.length →
        (call_all order (dispatch_all subs pool heap).2.1)[p]? = heap[p]?)
    ∧ (dispatch_all square_tasks sq_pool sq_heap).2.2.map
          (fun fut =>
            (fut.get (call_all sq_order (dispatch_all square_tasks sq_pool sq_heap).2.1)).1)
        = (List.range 100).map (fun i => get_result.returned (i * i))
    ∧ ((dispatch_all square_tasks sq_pool sq_heap).2.2.map
          (fun fut =>
            (fut.get
              (call_all sq_order (dispatch_all square_tasks sq_pool sq_heap).2.1)).1)).Nodup := by
  have hsquares := results_of_order sq_pool sq_heap square_tasks sq_order hsq
  rw [square_values] at hsquares
  refine ⟨dispatch_all_queue subs pool heap, results_of_order pool heap subs order hperm, ?_,
    fun w h p hp => call_other w h p hp, ?_, hsquares, ?_⟩
  · rw [dispatch_all_futures]
    have hfut : ∀ (n base : Nat),
        futures_from base n = (List.range' base n).map (fun p => ({ internal := some p } : Future)) := by
      intro n
      induction n with
      | zero => intro base; rfl
      | succ n ih => intro base; simp [futures_from, ih, List.range'_succ]
    rw [hfut]
    refine List.Nodup.map ?_ (List.nodup_range' heap.length subs.length)
    intro a b hab
    injection hab with h1
    injection h1
  · intro p hp
    rw [call_all_old order _ p, dispatch_all_heap, List.getElem?_append_left hp]
    intro w hw
    have hr := wrappers_from_range subs heap.length w ((List.Perm.mem_iff hperm).mp hw)
    omega
  · rw [hsquares]
    exact square_values_nodup

theorem results_independent_of_order_witness :
    (dispatch_all [(divide, 5), (divide, 0), (divide, 4)] example_pool []).2.2.map
        (fun fut => (fut.get (call_all
          [dispatched [shared_state.unset, shared_state.unset] divide 4,
            dispatched [] divide 5, dispatched [shared_state.unset] divide 0]
          (dispatch_all [(divide, 5), (divide, 0), (divide, 4)] example_pool []).2.1)).1)
      = [get_result.returned 20, get_result.raised (exception_ptr.thrown 1),
          get_result.returned 25]
    ∧ (dispatch_all square_tasks example_pool []).2.2.map
        (fun fut => (fut.get (call_all (wrappers_from 0 square_tasks).reverse
          (dispatch_all square_tasks example_pool []).2.1)).1)
      = (List.range 100).map (fun i => get_result.returned (i * i)) :=
  ⟨(results_independent_of_order example_pool [] [(divide, 5), (divide, 0), (divide, 4)]
      [dispatched [shared_state.unset, shared_state.unset] divide 4,
        dispatched [] divide 5, dispatched [shared_state.unset] divide 0]
      example_pool [] (wrappers_from 0 square_tasks).reverse
      ((List.Perm.swap _ _ _).trans (List.Perm.cons _ (List.Perm.swap _ _ _)))
      (List.reverse_perm _)).2.1,
   (results_independent_of_order example_pool [] [(divide, 5), (divide, 0), (divide, 4)]
      [dispatched [shared_state.unset, shared_state.unset] divide 4,
        dispatched [] divide 5, dispatched [shared_state.unset] divide 0]
      example_pool [] (wrappers_from 0 square_tasks).reverse
      ((List.Perm.swap _ _ _).trans (List.Perm.cons _ (List.Perm.swap _ _ _)))
      (List.reverse_perm _)).2.2.2.2.2.1⟩

/-- C6: `get()` is single-use. For every `Future` handle on which `get()` has returned a
value or raised the captured failure, the handle is left without a shared state, and a second
`get()` on the same handle, whatever the heap `later` holds by then, is rejected: it raises
`future_error(no_state)`, leaves the handle as it is, and yields no value; so does every
`get()` after it. -/
theorem second_get_rejected {T E : Type} (fut : Future) (heap later : Heap T E)
    (hfirst : (∃ v, (fut.get heap).1 = get_result.returned v)
      ∨ (∃ e, (fut.get heap).1 = get_result.raised e)) :
    (fut.get heap).2 = { internal := none }
    ∧ (fut.get heap).2.get later
        = (get_result.raised (exception_ptr.future_error future_errc.no_state),
            { internal := none })
    ∧ (∀ v : T, ((fut.get heap).2.get later).1 ≠ get_result.returned v)
    ∧ (((fut.get heap).2.get later).2.get later).1
        = get_result.raised (exception_ptr.future_error future_errc.no_state) := by
  have hinv : (fut.get heap).2 = { internal := none } := by
    obtain ⟨internal⟩ := fut
    cases internal with
    | none => rfl
    | some p =>
      unfold Future.get at hfirst ⊢
      cases hcell : heap[p]? with
      | none => simp [hcell]
      | some s =>
        cases s with
        | unset => simp [hcell] at hfirst
        | value v => simp [hcell]
        | exception e => simp [hcell]
  rw [hinv]
  refine ⟨rfl, rfl, ?_, rfl⟩
  intro v hv
  have hraised : (Future.get { internal := none } later).1
      = (get_result.raised (exception_ptr.future_error future_errc.no_state) : get_result T E) :=
    rfl
  rw [hraised] at hv
  cases hv

theorem second_get_rejected_witness :
    ((example_pool.dispatchTask [] divide 5).2.2.get
        ((dispatched [] divide 5).call (example_pool.dispatchTask [] divide 5).2.1).1).1
      = get_result.returned 20
    ∧ (((example_pool.dispatchTask [] divide 5).2.2.get
          ((dispatched [] divide 5).call (example_pool.dispatchTask [] divide 5).2.1).1).2.get
        ((dispatched [] divide 5).call (example_pool.dispatchTask [] divide 5).2.1).1)
      = (get_result.raised (exception_ptr.future_error future_errc.no_state),
          { internal := none }) :=
  ⟨by decide,
   (second_get_rejected (example_pool.dispatchTask [] divide 5).2.2
      ((dispatched [] divide 5).call (example_pool.dispatchTask [] divide 5).2.1).1
      ((dispatched [] divide 5).call (example_pool.dispatchTask [] divide 5).2.1).1
      (Or.inl ⟨20, by decide⟩)).2.1⟩

/-- C9: for every running pool with `numWorkers ≥ 1` workers and every interleaving `sched`
of submissions by callers and moves of the workers: at no time has a closure been executed
twice, and only submitted closures are executed; and once every worker has had its turns
(`tail`: after the last submission each worker moves at least `2 * M + 1` times, `M` the
number of submissions), every task has been executed exactly once, the queue is empty, and
every one of the `M` handles polls `ready` and yields the outcome of its task. -/
theorem every_task_executed_once {A T E : Type} (numWorkers : Nat) (heap : Heap T E)
    (sched : List (Action A T E)) (tail : List Nat) (hworkers : 1 ≤ numWorkers)
    (hfair : ∀ i, i < numWorkers → 2 * (submissions sched).length + 1 ≤ tail.count i) :
    ((run_actions sched (Machine.start numWorkers heap)).executed.map
        (fun w => w.promise)).Nodup
    ∧ (∀ w ∈ (run_actions sched (Machine.start numWorkers heap)).executed,
        w ∈ wrappers_from heap.length (submissions sched))
    ∧ (run_actions (sched ++ tail.map Action.turn)
        (Machine.start numWorkers heap)).executed.Perm
          (wrappers_from heap.length (submissions sched))
    ∧ (run_actions (sched ++ tail.map Action.turn)
        (Machine.start numWorkers heap)).pool.queue = []
    ∧ (run_actions (sched ++ tail.map Action.turn)
        (Machine.start numWorkers heap)).handles.length = (submissions sched).length
    ∧ (∀ fut ∈ (run_actions (sched ++ tail.map Action.turn)
          (Machine.start numWorkers heap)).handles,
        fut.poll (run_actions (sched ++ tail.map Action.turn)
          (Machine.start numWorkers heap)).heap = some future_status.ready)
    ∧ (run_actions (sched ++ tail.map Action.turn)
        (Machine.start numWorkers heap)).handles.map
          (fun fut => (fut.get (run_actions (sched ++ tail.map Action.turn)
            (Machine.start numWorkers heap)).heap).1)
        = (submissions sched).map (fun sub => get_result.of_outcome (sub.1 sub.2)) := by
  have h1 := inv_run numWorkers heap.length sched (Machine.start numWorkers heap) []
    (inv_start numWorkers heap)
  rw [List.nil_append] at h1
  obtain ⟨h2, hq, hheld⟩ := pool_drained numWorkers heap sched tail hworkers hfair
  have hperm := h2.perm
  rw [hq, hheld, List.append_nil, List.append_nil] at hperm
  have hcells : ∀ w ∈ wrappers_from heap.length (submissions sched),
      (run_actions (sched ++ tail.map Action.turn) (Machine.start numWorkers heap)).heap[w.promise]?
        = some (shared_state.of_outcome (w.func w.args)) :=
    fun w hw => h2.done w ((List.Perm.mem_iff hperm).mpr hw)
  have hnd : (((run_actions sched (Machine.start numWorkers heap)).executed
      ++ (held (run_actions sched (Machine.start numWorkers heap)).threads
        ++ (run_actions sched (Machine.start numWorkers heap)).pool.queue)).map
          (fun w => w.promise)).Nodup :=
    (List.Perm.nodup_iff (List.Perm.map _ h1.perm)).mpr
      (wrappers_from_nodup (submissions sched) heap.length)
  rw [List.map_append] at hnd
  refine ⟨(List.nodup_append.mp hnd).1,
    fun w hw => (List.Perm.mem_iff h1.perm).mp (List.mem_append_left _ hw),
    hperm, hq, ?_, ?_, ?_⟩
  · rw [h2.handles, futures_from_length]
  · rw [h2.handles]
    exact futures_from_poll (submissions sched) heap.length _ hcells
  · rw [h2.handles]
    exact futures_from_get (submissions sched) heap.length _ hcells

theorem every_task_executed_once_witness :
    ((run_actions
        ([Action.submit divide 5, Action.turn 0, Action.submit divide 0, Action.turn 1,
            Action.turn 1]
          ++ [0, 1, 0, 1, 0, 1, 0, 1, 0, 1].map Action.turn)
        (Machine.start 2 [])).executed.map (fun w => w.promise)).Perm [0, 1]
    ∧ (run_actions
        ([Action.submit divide 5, Action.turn 0, Action.submit divide 0, Action.turn 1,
            Action.turn 1]
          ++ [0, 1, 0, 1, 0, 1, 0, 1, 0, 1].map Action.turn)
        (Machine.start 2 [])).handles.map
          (fun fut => (fut.get (run_actions
            ([Action.submit divide 5, Action.turn 0, Action.submit divide 0, Action.turn 1,
                Action.turn 1]
              ++ [0, 1, 0, 1, 0, 1, 0, 1, 0, 1].map Action.turn)
            (Machine.start 2 [])).heap).1)
      = [get_result.returned 20, get_result.raised (exception_ptr.thrown 1)] :=
  ⟨List.Perm.map (fun w => w.promise)
    (every_task_executed_once 2 ([] : Heap Nat Nat)
      [Action.submit divide 5, Action.turn 0, Action.submit divide 0, Action.turn 1,
        Action.turn 1]
      [0, 1, 0, 1, 0, 1, 0, 1, 0, 1] (by decide) (by decide)).2.2.1,
   (every_task_executed_once 2 ([] : Heap Nat Nat)
      [Action.submit divide 5, Action.turn 0, Action.submit divide 0, Action.turn 1,
        Action.turn 1]
      [0, 1, 0, 1, 0, 1, 0, 1, 0, 1] (by decide) (by decide)).2.2.2.2.2.2⟩

end thread_pool

end cfdp.runtime
